import Mathlib

/-!
Banker's algorithm resource allocator.

A shallow embedding of `class BankersAlgorithm` from `task3_banker_fixed.cpp`.

* `std::vector<int>` is a `List Int`, `std::vector<std::vector<int>>` a `List (List Int)`,
  `std::vector<bool>` a `List Bool`.  An element read `v[j]` is `vget v j`, an element write
  `v[j] = x` is `List.set`.  Reads and writes outside the bounds of a vector are undefined
  behaviour in the source; the predicate `WF` describes the states in which every index the
  code uses is in bounds.
* `int` values are unbounded integers: signed overflow is undefined behaviour in the source,
  so the model describes the executions in which no `int` overflows.  The one exception is the
  accumulation `sum += allocation[i][j]` of `validateInitialState`, whose result decides
  whether construction succeeds: there each addition wraps to 32 bits (`wrapInt`), as it does
  in the compiled program.
* Console output is not modelled.  The `return` statement through which `requestResources`
  leaves is recorded in `Result.exit`.
* `cv.wait_for` releases `bankMutex` for the duration of the wait, so other threads may change
  the allocator meanwhile.  What they do is the parameter `env : Env`; `quiet` is the
  environment in which nobody else acts and every wait times out.
-/

namespace Banker

/-! ## Data model -/

/-- The element read `v[j]` of a `std::vector<int>`. -/
def vget (v : List Int) (j : Nat) : Int := v.getD j 0

/-- The element read `m[i][j]` of a `std::vector<std::vector<int>>`. -/
def mget (m : List (List Int)) (i j : Nat) : Int := vget (m.getD i []) j

/-- The element write `m[i][j] = x`. -/
def mset (m : List (List Int)) (i j : Nat) (x : Int) : List (List Int) :=
  m.set i ((m.getD i []).set j x)

/-- The data members of `BankersAlgorithm` (the mutexes and the condition variable apart). -/
structure State where
  numProcesses : Nat
  numResources : Nat
  available : List Int
  maximum : List (List Int)
  allocation : List (List Int)
  need : List (List Int)
  finished : List Bool
deriving DecidableEq

/-- Every vector has the size the loops of the class assume: `available` has `numResources`
entries, the three matrices are `numProcesses × numResources`, `finished` has `numProcesses`
entries. -/
def WF (s : State) : Prop :=
  s.available.length = s.numResources ∧
  s.finished.length = s.numProcesses ∧
  s.maximum.length = s.numProcesses ∧
  s.allocation.length = s.numProcesses ∧
  s.need.length = s.numProcesses ∧
  (∀ r ∈ s.maximum, r.length = s.numResources) ∧
  (∀ r ∈ s.allocation, r.length = s.numResources) ∧
  (∀ r ∈ s.need, r.length = s.numResources)

instance (s : State) : Decidable (WF s) := by
  unfold WF; infer_instance

/-- The exact quantity `available[j] + Σ_i allocation[i][j]`, the number of units of resource
`j` in the system, accumulated in the order of the actors over the unbounded integers. -/
def supply (s : State) (j : Nat) : Int :=
  (List.range s.numProcesses).foldl (fun sum i => sum + mget s.allocation i j)
    (vget s.available j)

/-! ## Safety algorithm -/

/-- The inner loop `for j: if (need[i][j] > work[j]) { canAllocate = false; break; }`. -/
def canAllocate (s : State) (work : List Int) (i : Nat) : Bool :=
  (List.range s.numResources).all fun j => !decide (mget s.need i j > vget work j)

/-- The inner loop `for j: work[j] += allocation[i][j]`. -/
def addAllocation (s : State) (work : List Int) (i : Nat) : List Int :=
  (List.range s.numResources).foldl
    (fun w j => w.set j (vget w j + mget s.allocation i j)) work

/-- The locals of `isSafe` / `findSafeSequence`. -/
structure Sim where
  work : List Int
  finish : List Bool
  sequence : List Nat
  found : Bool
  count : Nat
deriving DecidableEq

/-- The loop `for i: if (!finish[i] && !finished[i]) { allFinished = false; break; }`. -/
def allFinished (s : State) (finish : List Bool) : Bool :=
  (List.range s.numProcesses).all fun i =>
    !(!finish.getD i false && !s.finished.getD i false)

/-- The locals at the start of `isSafe` / `findSafeSequence`. -/
def Sim.init (s : State) : Sim :=
  { work := s.available
    finish := List.replicate s.numProcesses false
    sequence := []
    found := false
    count := 0 }

/-- Body of the `for i` scan of `isSafe` (lines 88-111). -/
def isSafe.visit (s : State) (sim : Sim) (i : Nat) : Sim :=
  if !sim.finish.getD i false && !s.finished.getD i false then
    if canAllocate s sim.work i then
      { work := addAllocation s sim.work i
        finish := sim.finish.set i true
        sequence := sim.sequence ++ [i]
        found := true
        count := sim.count + 1 }
    else sim
  else sim

/-- The `while (count < numProcesses)` loop of `isSafe`; `none` when the fuel runs out. -/
def isSafe.loop (s : State) : Nat → Sim → Option Bool
  | 0, _ => none
  | fuel + 1, sim =>
    if sim.count < s.numProcesses then
      let sim1 := (List.range s.numProcesses).foldl (isSafe.visit s) { sim with found := false }
      if !sim1.found then
        if allFinished s sim1.finish then some true else some false
      else isSafe.loop s fuel sim1
    else some true

/-- `bool isSafe()`, run for at most `numProcesses + 1` iterations of its `while` loop. -/
def isSafe (s : State) : Option Bool :=
  isSafe.loop s (s.numProcesses + 1) (Sim.init s)

/-- Body of the `for i` scan of `findSafeSequence` (lines 139-159). -/
def findSafeSequence.visit (s : State) (sim : Sim) (i : Nat) : Sim :=
  if !sim.finish.getD i false && !s.finished.getD i false then
    if canAllocate s sim.work i then
      { work := addAllocation s sim.work i
        finish := sim.finish.set i true
        sequence := sim.sequence ++ [i]
        found := true
        count := sim.count + 1 }
    else sim
  else sim

/-- The `while (count < numProcesses)` loop of `findSafeSequence`, returning the boolean and
the contents of the out-parameter `sequence`; `none` when the fuel runs out. -/
def findSafeSequence.loop (s : State) : Nat → Sim → Option (Bool × List Nat)
  | 0, _ => none
  | fuel + 1, sim =>
    if sim.count < s.numProcesses then
      let sim1 :=
        (List.range s.numProcesses).foldl (findSafeSequence.visit s) { sim with found := false }
      if !sim1.found then
        if allFinished s sim1.finish then some (true, sim1.sequence)
        else some (false, sim1.sequence)
      else findSafeSequence.loop s fuel sim1
    else some (true, sim.sequence)

/-- `bool findSafeSequence(std::vector<int>& sequence)`: the out-parameter is cleared first,
so the result depends on the state only. -/
def findSafeSequence (s : State) : Option (Bool × List Nat) :=
  findSafeSequence.loop s (s.numProcesses + 1) (Sim.init s)

/-- The order `seq` is a safe sequence of state `s`: the need of the actor at every position
fits `available` plus the allocations of the actors at the earlier positions. -/
def SafeSequence (s : State) (seq : List Nat) : Prop :=
  ∀ k, k < seq.length → ∀ j, j < s.numResources →
    mget s.need (seq.getD k 0) j ≤
      vget s.available j + ((seq.take k).map fun i => mget s.allocation i j).sum

instance (s : State) (seq : List Nat) : Decidable (SafeSequence s seq) := by
  unfold SafeSequence; infer_instance

/-- Actor `i` exists and has not been released. -/
def Active (s : State) (i : Nat) : Prop :=
  i < s.numProcesses ∧ s.finished.getD i false = false

instance (s : State) (i : Nat) : Decidable (Active s i) := by
  unfold Active; infer_instance

/-- The invariant of the `while` loop of the safety algorithm: `sequence` lists the actors
marked in `finish`, each once, all of them active, in a safe order, `count` is its length and
`work` is `available` plus what the listed actors hold. -/
structure SimInv (s : State) (sim : Sim) : Prop where
  finish_len : sim.finish.length = s.numProcesses
  work_len : sim.work.length = s.numResources
  count_eq : sim.count = sim.sequence.length
  nodup : sim.sequence.Nodup
  mem_iff : ∀ i, i ∈ sim.sequence ↔ sim.finish.getD i false = true
  active : ∀ i, i ∈ sim.sequence → Active s i
  work_eq : ∀ j, j < s.numResources →
    vget sim.work j = vget s.available j + (sim.sequence.map fun i => mget s.allocation i j).sum
  safe : SafeSequence s sim.sequence

/-! ## Requests -/

/-- The `return` statement through which `requestResources` leaves: line 186 (process already
finished), line 216 (request exceeds need), line 272 (granted), line 295 (retries used up). -/
inductive Exit
  | rejectedFinished
  | exceedsNeed
  | granted
  | maxRetries
deriving DecidableEq

/-- Outcome of a call of `requestResources`: the returned `bool`, the exit taken and the
allocator state left behind. -/
structure Result where
  ret : Bool
  exit : Exit
  state : State
deriving DecidableEq

/-- The two places where `requestResources` waits on the condition variable: line 233
(resources not available) and line 287 (back-off after an unsafe tentative allocation). -/
inductive Wait
  | availability
  | backoff
deriving DecidableEq

/-- What the other threads do to the allocator while the caller waits: `env w k s` is the state
found after the wait at place `w` during the attempt with `retries = k`, entered in state `s`.
Every function is admitted here, which is more than the two mutexes of the class allow: what
is proved for every `env` holds in particular for the behaviours they do allow. -/
abbrev Env := Wait → Nat → State → State

/-- Nobody else acts: every wait ends with the state it started with. -/
def quiet : Env := fun _ _ s => s

/-- The loop `for j: if (request[j] > need[processId][j]) { exceedsNeed = true; break; }`. -/
def exceedsNeed (s : State) (processId : Nat) (request : List Int) : Bool :=
  (List.range s.numResources).any fun j => decide (vget request j > mget s.need processId j)

/-- The loop `for j: if (request[j] > available[j]) { resourcesAvailable = false; break; }`,
which is also the predicate handed to `cv.wait_for`. -/
def resourcesAvailable (s : State) (request : List Int) : Bool :=
  (List.range s.numResources).all fun j => !decide (vget request j > vget s.available j)

/-- One iteration of the loop at lines 262-266. -/
def allocateStep (processId : Nat) (request : List Int) (s : State) (j : Nat) : State :=
  { s with
    available := s.available.set j (vget s.available j - vget request j)
    allocation := mset s.allocation processId j (mget s.allocation processId j + vget request j)
    need := mset s.need processId j (mget s.need processId j - vget request j) }

/-- The tentative allocation, lines 262-266. -/
def allocate (s : State) (processId : Nat) (request : List Int) : State :=
  (List.range s.numResources).foldl (allocateStep processId request) s

/-- One iteration of the loop at lines 275-279. -/
def rollbackStep (processId : Nat) (request : List Int) (s : State) (j : Nat) : State :=
  { s with
    available := s.available.set j (vget s.available j + vget request j)
    allocation := mset s.allocation processId j (mget s.allocation processId j - vget request j)
    need := mset s.need processId j (mget s.need processId j + vget request j) }

/-- The rollback, lines 275-279. -/
def rollback (s : State) (processId : Nat) (request : List Int) : State :=
  (List.range s.numResources).foldl (rollbackStep processId request) s

/-- Lines 219-259: the availability check and, when it fails, the timed wait.  Returns the
state after the wait and whether the attempt goes on to the tentative allocation. -/
def awaitResources (env : Env) (retries : Nat) (s : State) (request : List Int) :
    State × Bool :=
  if !resourcesAvailable s request then
    let s1 := env Wait.availability retries s
    let signaled := resourcesAvailable s1 request
    if !signaled then (s1, false)
    else if !resourcesAvailable s1 request then (s1, false)
    else (s1, true)
  else (s, true)

/-- The `while (retries < maxRetries)` loop of `requestResources` and the final `return false`
after it; `none` when the fuel runs out or the safety check does not return. -/
def requestResources.loop (env : Env) (processId : Nat) (request : List Int) (maxRetries : Int) :
    Nat → Nat → State → Option Result
  | 0, _, _ => none
  | fuel + 1, retries, s =>
    if (retries : Int) < maxRetries then
      if exceedsNeed s processId request then
        some { ret := false, exit := Exit.exceedsNeed, state := s }
      else
        match awaitResources env retries s request with
        | (s1, false) => requestResources.loop env processId request maxRetries fuel (retries + 1) s1
        | (s1, true) =>
          let s2 := allocate s1 processId request
          match isSafe s2 with
          | none => none
          | some true => some { ret := true, exit := Exit.granted, state := s2 }
          | some false =>
            let s3 := rollback s2 processId request
            requestResources.loop env processId request maxRetries fuel (retries + 1)
              (env Wait.backoff retries s3)
    else some { ret := false, exit := Exit.maxRetries, state := s }

/-- `bool requestResources(int processId, const std::vector<int>& request, int maxRetries,
int timeoutMs)`.  The length of a wait has no effect on the model beyond what `env` does, so
`timeoutMs` is not a parameter.  The loop gets `maxRetries + 1` units of fuel. -/
def requestResources (env : Env) (s : State) (processId : Nat) (request : List Int)
    (maxRetries : Int) : Option Result :=
  if s.finished.getD processId false then
    some { ret := false, exit := Exit.rejectedFinished, state := s }
  else requestResources.loop env processId request maxRetries (maxRetries.toNat + 1) 0 s

/-! ## Release -/

/-- One iteration of the loop at lines 315-319. -/
def releaseStep (processId : Nat) (s : State) (j : Nat) : State :=
  { s with
    available := s.available.set j (vget s.available j + mget s.allocation processId j)
    allocation := mset s.allocation processId j 0
    need := mset s.need processId j 0 }

/-- `void releaseResources(int processId)`. -/
def releaseResources (s : State) (processId : Nat) : State :=
  if s.finished.getD processId false then s
  else
    let s1 := (List.range s.numResources).foldl (releaseStep processId) s
    { s1 with finished := s1.finished.set processId true }

/-! ## Construction -/

/-- The `std::invalid_argument` exceptions thrown by `validateInitialState`. -/
inductive InvalidArgument
  | allocationAboveMaximum (i j : Nat)
  | negativeValue
  | badSupply (j : Nat)
deriving DecidableEq

/-- The checks of one matrix cell, lines 55-62. -/
def validateCell (s : State) (i j : Nat) : Except InvalidArgument Unit :=
  if mget s.allocation i j > mget s.maximum i j then
    throw (InvalidArgument.allocationAboveMaximum i j)
  else if mget s.allocation i j < 0 ∨ mget s.maximum i j < 0 then
    throw InvalidArgument.negativeValue
  else pure ()

/-- The value of type `int` (32 bits, two's complement) that holds the exact result `x` of an
`int` addition: `x` itself when `-2147483648 ≤ x ≤ 2147483647`, and otherwise the number of
that range that differs from `x` by a multiple of `2^32`.  Signed overflow is undefined
behaviour in the standard; the compiled addition wraps. -/
def wrapInt (x : Int) : Int := (x + 2147483648) % 4294967296 - 2147483648

/-- The variable `sum` of `validateInitialState` for resource `j` after its loop (lines
68-72): `int sum = available[j]; for i: sum += allocation[i][j]`, every addition an `int`
addition. -/
def columnSum (s : State) (j : Nat) : Int :=
  (List.range s.numProcesses).foldl (fun sum i => wrapInt (sum + mget s.allocation i j))
    (vget s.available j)

/-- `void validateInitialState()`, lines 52-77. -/
def validateInitialState (s : State) : Except InvalidArgument Unit := do
  (List.range s.numProcesses).forM fun i =>
    (List.range s.numResources).forM fun j => validateCell s i j
  (List.range s.numResources).forM fun j =>
    if columnSum s j < 0 then throw (InvalidArgument.badSupply j) else pure ()

/-- The constructor `BankersAlgorithm(processes, resources, avail, max, alloc)`. -/
def construct (processes resources : Nat) (avail : List Int) (max alloc : List (List Int)) :
    Except InvalidArgument State :=
  let s0 : State :=
    { numProcesses := processes
      numResources := resources
      available := avail
      maximum := max
      allocation := alloc
      need := []
      finished := List.replicate processes false }
  match validateInitialState s0 with
  | Except.error e => Except.error e
  | Except.ok _ =>
    Except.ok { s0 with
      need := (List.range processes).map fun i =>
        (List.range resources).map fun j => mget max i j - mget alloc i j }

/-! ## The configuration of Example 1 in `main` -/

/-- The allocator `bank1` of `main`. -/
def exampleState : State :=
  { numProcesses := 5
    numResources := 3
    available := [3, 3, 2]
    maximum := [[7, 5, 3], [3, 2, 2], [9, 0, 2], [2, 2, 2], [4, 3, 3]]
    allocation := [[0, 1, 0], [2, 0, 0], [3, 0, 2], [2, 1, 1], [0, 0, 2]]
    need := [[7, 4, 3], [1, 2, 2], [6, 0, 0], [0, 1, 1], [4, 3, 1]]
    finished := [false, false, false, false, false] }

/-- The allocator `bank1` after `requestResources(1, {1, 0, 2})` (Test 1 of `main`). -/
def exampleGranted : State :=
  { exampleState with
    available := [2, 3, 0]
    allocation := [[0, 1, 0], [3, 0, 2], [3, 0, 2], [2, 1, 1], [0, 0, 2]]
    need := [[7, 4, 3], [0, 2, 0], [6, 0, 0], [0, 1, 1], [4, 3, 1]] }

/-- The allocator `bank1` after `releaseResources(0)`. -/
def exampleReleased : State :=
  { exampleState with
    available := [3, 4, 2]
    allocation := [[0, 0, 0], [2, 0, 0], [3, 0, 2], [2, 1, 1], [0, 0, 2]]
    need := [[0, 0, 0], [1, 2, 2], [6, 0, 0], [0, 1, 1], [4, 3, 1]]
    finished := [true, false, false, false, false] }

/-! ## Sequences of calls -/

/-- The states reached from `s0` by calls of `requestResources` and `releaseResources` for
existing actors, one call after the other (no call overlaps another). -/
inductive Reachable (s0 : State) : State → Prop
  | init : Reachable s0 s0
  | request {s : State} (a : Nat) (req : List Int) (maxRetries : Int) (r : Result) :
      Reachable s0 s → a < s.numProcesses →
      requestResources quiet s a req maxRetries = some r → Reachable s0 r.state
  | release {s : State} (a : Nat) :
      Reachable s0 s → a < s.numProcesses → Reachable s0 (releaseResources s a)

/-- State `t` has the shape of state `s` and the same supply of resource `j`. -/
def SameSupply (s : State) (j : Nat) (t : State) : Prop :=
  WF t ∧ t.numProcesses = s.numProcesses ∧ t.numResources = s.numResources ∧
    supply t j = supply s j

/-- Whatever the other threads do during a wait keeps the shape of the tables and the supply
of resource `j`, as their own calls of `requestResources` and `releaseResources` do. -/
def Conserving (env : Env) (s : State) (j : Nat) : Prop :=
  ∀ w k t, SameSupply s j t → SameSupply s j (env w k t)

/-- The constructor arguments have the sizes the constructor assumes (it does not check
them): `avail` has `resources` entries, `max` and `alloc` are `processes × resources`. -/
def Dims (processes resources : Nat) (avail : List Int) (max alloc : List (List Int)) : Prop :=
  avail.length = resources ∧ max.length = processes ∧ alloc.length = processes ∧
  (∀ r ∈ max, r.length = resources) ∧ (∀ r ∈ alloc, r.length = resources)

instance (processes resources : Nat) (avail : List Int) (max alloc : List (List Int)) :
    Decidable (Dims processes resources avail max alloc) := by
  unfold Dims; infer_instance

/-- The states reached like in `Reachable`, by requests whose vectors have no negative
entry. -/
inductive ReachableNonneg (s0 : State) : State → Prop
  | init : ReachableNonneg s0 s0
  | request {s : State} (a : Nat) (req : List Int) (maxRetries : Int) (r : Result) :
      ReachableNonneg s0 s → a < s.numProcesses →
      (∀ j, j < s.numResources → 0 ≤ vget req j) →
      requestResources quiet s a req maxRetries = some r → ReachableNonneg s0 r.state
  | release {s : State} (a : Nat) :
      ReachableNonneg s0 s → a < s.numProcesses → ReachableNonneg s0 (releaseResources s a)

/-- The relation between the tables that construction establishes and the calls keep: no
entry of `maximum` is negative; for an actor that is not finished `allocation + need` is
`maximum` and `need` is not negative; for a finished actor `allocation` and `need` are zero. -/
def Consistent (s : State) : Prop :=
  ∀ i, i < s.numProcesses → ∀ j, j < s.numResources →
    0 ≤ mget s.maximum i j ∧
    (s.finished.getD i false = false →
      mget s.allocation i j + mget s.need i j = mget s.maximum i j ∧ 0 ≤ mget s.need i j) ∧
    (s.finished.getD i false = true → mget s.allocation i j = 0 ∧ mget s.need i j = 0)

instance (s : State) : Decidable (Consistent s) := by
  unfold Consistent; infer_instance

/-- The allocator built from `Available = [-1]`, `Maximum = [[1]]`, `Allocation = [[1]]`. -/
def negativeAvailable : State :=
  { numProcesses := 1
    numResources := 1
    available := [-1]
    maximum := [[1]]
    allocation := [[1]]
    need := [[0]]
    finished := [false] }

/-- The recursive form of a safe order: the need of the first actor fits the work vector `w`,
and the rest is a safe order for `w` plus the allocation of the first actor. -/
def SafeFrom (s : State) (w : Nat → Int) : List Nat → Prop
  | [] => True
  | i :: rest =>
    (∀ j, j < s.numResources → mget s.need i j ≤ w j) ∧
      SafeFrom s (fun j => w j + mget s.allocation i j) rest

/-- State `t` differs from state `s` at most in `available` and in the rows `allocation[a]`
and `need[a]`. -/
def SameFrame (s : State) (a : Nat) (t : State) : Prop :=
  t.numProcesses = s.numProcesses ∧ t.numResources = s.numResources ∧
  t.maximum = s.maximum ∧ t.finished = s.finished ∧
  t.allocation.length = s.allocation.length ∧ t.need.length = s.need.length ∧
  ∀ i, i ≠ a →
    t.allocation.getD i [] = s.allocation.getD i [] ∧ t.need.getD i [] = s.need.getD i []

/-! ## Locks

The calls seen from the two mutexes: which mutex is locked and unlocked where, and between
which of these points the shared tables are read and written. -/

/-- The two mutexes of the class. -/
inductive Mutex
  | bankMutex
  | printMutex
deriving DecidableEq

/-- The data members shared by the threads. -/
inductive Var
  | available
  | maximum
  | allocation
  | need
  | finished
deriving DecidableEq

/-- What a thread does, as far as the locks are concerned. `lock` and `unlock` are the
constructor and the destructor of a `lock_guard` or `unique_lock`; `read v` and `write v` stand
for the reads and writes of `v` made by one statement or loop of the source; `wait` is the
entry into `cv.wait_for(lock, ...)`, which unlocks `bankMutex` and suspends the thread, and
`wake` the return from it, which locks `bankMutex` again. -/
inductive Op
  | lock (m : Mutex)
  | unlock (m : Mutex)
  | read (v : Var)
  | write (v : Var)
  | wait
  | wake
  | notifyAll
deriving DecidableEq

/-- `int getActiveProcessCount() const`. -/
def getActiveProcessCount (s : State) : Nat :=
  ((List.range s.numProcesses).filter fun i => !s.finished.getD i false).length

/-- The steps of `printState()`, lines 344-374: the `lock_guard` on `printMutex`, the loop over
`available`, `getActiveProcessCount`, and when some process is active the three calls of
`printMatrixWithStatus`, each reading `finished` and its matrix. -/
def printState.ops (s : State) : List Op :=
  [Op.lock Mutex.printMutex, Op.read Var.available, Op.read Var.finished] ++
  (if getActiveProcessCount s > 0 then
    [Op.read Var.finished, Op.read Var.maximum,
     Op.read Var.finished, Op.read Var.allocation,
     Op.read Var.finished, Op.read Var.need]
  else []) ++
  [Op.unlock Mutex.printMutex]

/-- The steps of `releaseResources(processId)`, lines 299-330. -/
def releaseResources.ops (s : State) (processId : Nat) : List Op :=
  [Op.lock Mutex.bankMutex, Op.read Var.finished] ++
  (if s.finished.getD processId false then
    [Op.lock Mutex.printMutex, Op.unlock Mutex.printMutex, Op.unlock Mutex.bankMutex]
  else
    [Op.lock Mutex.printMutex, Op.read Var.allocation, Op.unlock Mutex.printMutex,
     Op.read Var.allocation, Op.write Var.available, Op.write Var.allocation,
     Op.write Var.need, Op.write Var.finished,
     Op.lock Mutex.printMutex, Op.unlock Mutex.printMutex,
     Op.notifyAll, Op.unlock Mutex.bankMutex])

/-- The steps of one iteration of the `while` loop of `requestResources`, lines 192-289,
started in state `s`, when nobody else acts. The `lock_guard` of line 229 lives until the end
of the block of `if (!resourcesAvailable)`, so it is unlocked only after the wait, when
`continue` leaves the block; the `unique_lock` of line 192 is unlocked last. -/
def requestResources.attemptOps (s : State) (processId : Nat) (request : List Int) : List Op :=
  [Op.lock Mutex.bankMutex, Op.lock Mutex.printMutex, Op.unlock Mutex.printMutex,
   Op.read Var.need] ++
  (if exceedsNeed s processId request then
    [Op.lock Mutex.printMutex, Op.unlock Mutex.printMutex, Op.unlock Mutex.bankMutex]
  else
    [Op.read Var.available] ++
    (if !resourcesAvailable s request then
      [Op.lock Mutex.printMutex, Op.read Var.available, Op.wait, Op.wake,
       Op.read Var.available, Op.unlock Mutex.printMutex, Op.unlock Mutex.bankMutex]
    else
      [Op.write Var.available, Op.write Var.allocation, Op.write Var.need,
       Op.read Var.available, Op.read Var.finished, Op.read Var.need,
       Op.read Var.allocation] ++
      (if isSafe (allocate s processId request) = some true then
        [Op.lock Mutex.printMutex, Op.unlock Mutex.printMutex, Op.unlock Mutex.bankMutex]
      else
        [Op.write Var.available, Op.write Var.allocation, Op.write Var.need,
         Op.lock Mutex.printMutex, Op.unlock Mutex.printMutex, Op.wait, Op.wake,
         Op.unlock Mutex.bankMutex])))

/-- The steps of `requestResources(processId, request, maxRetries)` started in state `s`, when
nobody else acts: the unlocked test of `finished[processId]` at line 183, then either the
rejection message, or one iteration that returns, or `maxRetries` failing iterations (each
leaves the state as it was) and the final message of line 293. -/
def requestResources.ops (s : State) (processId : Nat) (request : List Int)
    (maxRetries : Int) : List Op :=
  [Op.read Var.finished] ++
  (if s.finished.getD processId false then
    [Op.lock Mutex.printMutex, Op.unlock Mutex.printMutex]
  else if maxRetries ≤ 0 then
    [Op.lock Mutex.printMutex, Op.unlock Mutex.printMutex]
  else if exceedsNeed s processId request ∨
      (resourcesAvailable s request ∧ isSafe (allocate s processId request) = some true) then
    requestResources.attemptOps s processId request
  else
    (List.replicate maxRetries.toNat (requestResources.attemptOps s processId request)).flatten ++
    [Op.lock Mutex.printMutex, Op.unlock Mutex.printMutex])

/-- The shared variables a sequence of steps reads or writes while `bankMutex` is not held;
`held` tells whether it is held at the start. -/
def unprotected : Bool → List Op → List Var
  | _, [] => []
  | held, op :: rest =>
    match op with
    | Op.lock Mutex.bankMutex => unprotected true rest
    | Op.unlock Mutex.bankMutex => unprotected false rest
    | Op.wait => unprotected false rest
    | Op.wake => unprotected true rest
    | Op.read v => if held then unprotected held rest else v :: unprotected held rest
    | Op.write v => if held then unprotected held rest else v :: unprotected held rest
    | _ => unprotected held rest

/-- Threads running side by side: the owner of each mutex (a thread number) and what each
thread still has to do. -/
structure Config where
  bankOwner : Option Nat
  printOwner : Option Nat
  threads : List (List Op)
deriving DecidableEq

/-- The owner of a mutex. -/
def Config.owner (c : Config) : Mutex → Option Nat
  | Mutex.bankMutex => c.bankOwner
  | Mutex.printMutex => c.printOwner

/-- Hand a mutex to `o`. -/
def Config.setOwner (c : Config) (m : Mutex) (o : Option Nat) : Config :=
  match m with
  | Mutex.bankMutex => { c with bankOwner := o }
  | Mutex.printMutex => { c with printOwner := o }

/-- Thread `t` can take its next step: a `lock` needs the mutex to be free, and so does the
return from `cv.wait_for`, which may happen at any time (timeout or notification) but must
lock `bankMutex` again. -/
def enabled (c : Config) (t : Nat) : Bool :=
  match c.threads.getD t [] with
  | [] => false
  | Op.lock m :: _ => (c.owner m).isNone
  | Op.wake :: _ => c.bankOwner.isNone
  | _ :: _ => true

/-- Thread `t` takes its next step. -/
def step (c : Config) (t : Nat) : Option Config :=
  match c.threads.getD t [] with
  | [] => none
  | op :: rest =>
    if enabled c t then
      let c1 : Config := { c with threads := c.threads.set t rest }
      match op with
      | Op.lock m => some (c1.setOwner m (some t))
      | Op.unlock m => some (c1.setOwner m none)
      | Op.wait => some (c1.setOwner Mutex.bankMutex none)
      | Op.wake => some (c1.setOwner Mutex.bankMutex (some t))
      | _ => some c1
    else none

/-- The threads take steps in the order given by the schedule. -/
def run (c : Config) : List Nat → Option Config
  | [] => some c
  | t :: ts =>
    match step c t with
    | none => none
    | some c1 => run c1 ts

/-- Some thread has steps left and no thread can take a step. -/
def Deadlocked (c : Config) : Prop :=
  (∃ t, t < c.threads.length ∧ c.threads.getD t [] ≠ []) ∧
  ∀ t, t < c.threads.length → enabled c t = false

instance (c : Config) : Decidable (Deadlocked c) := by
  unfold Deadlocked; infer_instance

end Banker

/-!
# Training schedule

A shallow embedding of `task2_trainings.cpp`: `Date::getDayOfWeek` and the two filters
`findTrainingsByDaySingleThread` and `findTrainingsByDayMultiThread`.

* `int` and `size_t` values are unbounded (`Int`, `Nat`); the `/` and `%` of C++ on `int`
  truncate towards zero and are `Int.tdiv` and `Int.tmod`.
* `std::vector<Training>` is a `List Training`; `push_back` appends at the end.
* Each thread of `findTrainingsByDayMultiThread` runs `processChunk` on its own element of
  `threadResults` and reads `trainings` only, and all threads are joined before the merge, so
  the element `i` of `threadResults` at the merge is what `processChunk` computes for chunk `i`
  alone, whatever the interleaving.
-/

namespace Trainings

/-- The `struct Date` (lines 24-27). -/
structure Date where
  day : Int
  month : Int
  year : Int
deriving DecidableEq

/-- The operand of `% 7` in the definition of `h` in `Date::getDayOfWeek` (lines 31-45), with
January and February counted as months 13 and 14 of the year before. -/
def Date.zellerSum (date : Date) : Int :=
  let d := date.day
  let m := if date.month < 3 then date.month + 12 else date.month
  let y := if date.month < 3 then date.year - 1 else date.year
  let k := Int.tmod y 100
  let j := Int.tdiv y 100
  d + Int.tdiv (13 * (m + 1)) 5 + k + Int.tdiv k 4 + Int.tdiv j 4 - 2 * j

/-- The method `Date::getDayOfWeek` (lines 30-49): `h = zellerSum % 7`, result
`(h + 6) % 7`, both remainders truncating. -/
def Date.getDayOfWeek (date : Date) : Int :=
  let h := Int.tmod date.zellerSum 7
  Int.tmod (h + 6) 7

/-- The `struct Time`. -/
structure Time where
  hours : Int
  minutes : Int
deriving DecidableEq

/-- The `struct Training`. -/
structure Training where
  date : Date
  time : Time
  trainerName : String
deriving DecidableEq

/-- The function `findTrainingsByDaySingleThread` (lines 126-139): a loop over `trainings`
that appends to `result` every element whose weekday is `dayOfWeek`. -/
def findTrainingsByDaySingleThread (trainings : List Training) (dayOfWeek : Int) :
    List Training :=
  trainings.foldl
    (fun result t => if t.date.getDayOfWeek = dayOfWeek then result ++ [t] else result) []

/-- The function `processChunk` (lines 143-154): `for (i = start; i < end; ++i)` appending
`trainings[i]` to `localResults` when its weekday is `dayOfWeek`.  A read outside the vector is
undefined behaviour in the source; the model skips such an index. -/
def processChunk (trainings : List Training) (start endIndex : Nat) (dayOfWeek : Int)
    (localResults : List Training) : List Training :=
  (List.range' start (endIndex - start)).foldl
    (fun acc i =>
      match trainings[i]? with
      | some t => if t.date.getDayOfWeek = dayOfWeek then acc ++ [t] else acc
      | none => acc)
    localResults

/-- The pairs `(start, end)` handed to the threads by the loop of lines 167-176 of
`findTrainingsByDayMultiThread`, in the order of the threads: the loop state is the variable
`start` and the bounds issued so far. -/
def chunkBounds (size numThreads : Nat) : List (Nat × Nat) :=
  ((List.range numThreads).foldl
    (fun (st : Nat × List (Nat × Nat)) i =>
      let endIndex := st.1 + size / numThreads + (if i < size % numThreads then 1 else 0)
      (endIndex, st.2 ++ [(st.1, endIndex)]))
    (0, [])).2

/-- The function `findTrainingsByDayMultiThread` (lines 156-189) for `numThreads ≥ 1`:
thread `i` fills `threadResults[i]` from its chunk, and the merge loop appends the elements of
`threadResults` in order. -/
def findTrainingsByDayMultiThread (trainings : List Training) (dayOfWeek : Int)
    (numThreads : Nat) : List Training :=
  let threadResults :=
    (chunkBounds trainings.length numThreads).map fun b =>
      processChunk trainings b.1 b.2 dayOfWeek []
  threadResults.foldl (fun result tr => result ++ tr) []

/-! ## Reference notions for the training schedule -/

/-- The leap years of the Gregorian calendar. -/
def isLeapYear (y : Int) : Prop := (y % 4 = 0 ∧ y % 100 ≠ 0) ∨ y % 400 = 0

instance (y : Int) : Decidable (isLeapYear y) := by
  unfold isLeapYear; infer_instance

/-- The number of days of year `y`. -/
def daysInYear (y : Int) : Int := if isLeapYear y then 366 else 365

/-- The number of days of month `m` of year `y`. -/
def daysInMonth (y m : Int) : Int :=
  if m = 2 then (if isLeapYear y then 29 else 28)
  else if m = 4 ∨ m = 6 ∨ m = 9 ∨ m = 11 then 30
  else 31

/-- A valid calendar date: year at least 1, month in `1..12`, day within the month. -/
def Date.Valid (date : Date) : Prop :=
  1 ≤ date.year ∧ 1 ≤ date.month ∧ date.month ≤ 12 ∧
  1 ≤ date.day ∧ date.day ≤ daysInMonth date.year date.month

instance (date : Date) : Decidable date.Valid := by
  unfold Date.Valid; infer_instance

/-- The number of the day `date` counted from 1 January of year 1 as day 1: the days of the
full years before, the days of the full months before in the same year, and the day of the
month. -/
def dayNumber (date : Date) : Int :=
  ((List.range (date.year.toNat - 1)).map fun (t : Nat) => daysInYear ((t : Int) + 1)).sum +
  ((List.range (date.month.toNat - 1)).map fun (i : Nat) =>
    daysInMonth date.year ((i : Int) + 1)).sum +
  date.day

/-- The weekday of a date of the Gregorian calendar, `0` for Sunday up to `6` for Saturday,
defined by counting days: 1 January of year 1 is a Monday, and the weekday advances by one
each day. -/
def gregorianWeekday (date : Date) : Int := dayNumber date % 7

/-- The list of chunks `l` starts at `a`, ends at `b`, each chunk `(start, end)` has
`start ≤ end`, and each chunk starts where the one before it ends. -/
def Contiguous : Nat → List (Nat × Nat) → Nat → Prop
  | a, [], b => a = b
  | a, c :: rest, b => c.1 = a ∧ c.1 ≤ c.2 ∧ Contiguous c.2 rest b

instance decidableContiguous :
    (a : Nat) → (l : List (Nat × Nat)) → (b : Nat) → Decidable (Contiguous a l b)
  | a, [], b => by unfold Contiguous; infer_instance
  | a, c :: rest, b => by
    unfold Contiguous
    have := decidableContiguous c.2 rest b
    infer_instance

end Trainings

namespace Banker

/-! ## Vectors and matrices -/

theorem getD_set {α : Type} (l : List α) (j k : Nat) (x d : α) :
    (l.set j x).getD k d = if j = k ∧ k < l.length then x else l.getD k d := by
  simp only [List.getD_eq_getElem?_getD, List.getElem?_set]
  by_cases hjk : j = k
  · subst hjk
    by_cases hlt : j < l.length
    · simp [hlt]
    · simp [hlt, List.getElem?_eq_none (Nat.le_of_not_lt hlt)]
  · simp [hjk]

theorem vget_set (v : List Int) (j k : Nat) (x : Int) :
    vget (v.set j x) k = if j = k ∧ k < v.length then x else vget v k :=
  getD_set v j k x 0

theorem length_foldl_set (g : Nat → Int → Int) (l : List Nat) (v : List Int) :
    (l.foldl (fun w j => w.set j (g j (vget w j))) v).length = v.length := by
  induction l generalizing v with
  | nil => rfl
  | cons a l ih => simp [List.foldl_cons, ih]

/-- A loop `for j < n: v[j] = g j v[j]` changes exactly the entries below `n`. -/
theorem vget_foldl_set (g : Nat → Int → Int) (n : Nat) (v : List Int) (k : Nat) :
    vget ((List.range n).foldl (fun w j => w.set j (g j (vget w j))) v) k =
      if k < n ∧ k < v.length then g k (vget v k) else vget v k := by
  induction n generalizing k with
  | zero => simp
  | succ n ih =>
    rw [List.range_succ, List.foldl_append]
    simp only [List.foldl_cons, List.foldl_nil]
    rw [vget_set, length_foldl_set, ih k, ih n]
    by_cases hnk : n = k
    · subst hnk
      by_cases hlt : n < v.length
      · simp [hlt]
      · simp [hlt]
    · have : k < n + 1 ↔ k < n := by omega
      simp [hnk, this]

/-- Two vectors of the same length with the same entries are equal. -/
theorem vec_ext {v w : List Int} (hlen : v.length = w.length)
    (h : ∀ k, k < v.length → vget v k = vget w k) : v = w := by
  apply List.ext_getElem hlen
  intro k h1 h2
  have := h k h1
  unfold vget at this
  simpa [List.getD_eq_getElem?_getD, List.getElem?_eq_getElem h1,
    List.getElem?_eq_getElem h2] using this

theorem set_getD_self {α : Type} (m : List α) (a : Nat) (d : α) : m.set a (m.getD a d) = m := by
  induction m generalizing a with
  | nil => rfl
  | cons x m ih =>
    cases a with
    | zero => rfl
    | succ a => simpa using ih a

/-- A loop `for j < n: m[a][j] = g j m[a][j]` rewrites row `a` only. -/
theorem foldl_mset (g : Nat → Int → Int) (a : Nat) (l : List Nat) (m : List (List Int)) :
    l.foldl (fun m j => mset m a j (g j (mget m a j))) m =
      m.set a (l.foldl (fun w j => w.set j (g j (vget w j))) (m.getD a [])) := by
  induction l generalizing m with
  | nil =>
    simp only [List.foldl_nil]
    exact (set_getD_self m a []).symm
  | cons j l ih =>
    simp only [List.foldl_cons]
    rw [ih]
    by_cases ha : a < m.length
    · simp [mset, mget, List.getD_eq_getElem?_getD, List.getElem?_eq_getElem ha, ha]
    · have hle := Nat.le_of_not_lt ha
      simp [mset, List.set_eq_of_length_le hle]

theorem mget_set_row (m : List (List Int)) (a i k : Nat) (r : List Int) :
    mget (m.set a r) i k = if a = i ∧ i < m.length then vget r k else mget m i k := by
  unfold mget
  rw [getD_set]
  split <;> rfl

/-- A loop `for j < n: v[j] = 0` on a vector of length `n` leaves `n` zeros. -/
theorem foldl_set_zero (n : Nat) (v : List Int) (hv : v.length = n) :
    (List.range n).foldl (fun w j => w.set j 0) v = List.replicate n 0 := by
  have hlen := length_foldl_set (fun _ _ => 0) (List.range n) v
  simp only at hlen
  apply vec_ext
  · rw [hlen, hv, List.length_replicate]
  · intro k hk
    rw [hlen] at hk
    have h := vget_foldl_set (fun _ _ => 0) n v k
    simp only at h
    rw [h, if_pos ⟨hv ▸ hk, hk⟩]
    unfold vget
    simp [List.getD_eq_getElem?_getD, List.getElem?_replicate, hv ▸ hk]

/-- Undoing a loop of entry updates entry by entry gives the vector back. -/
theorem foldl_set_inverse (g h : Nat → Int → Int) (hinv : ∀ j x, h j (g j x) = x) (n : Nat)
    (v : List Int) :
    (List.range n).foldl (fun w j => w.set j (h j (vget w j)))
      ((List.range n).foldl (fun w j => w.set j (g j (vget w j))) v) = v := by
  apply vec_ext
  · rw [length_foldl_set, length_foldl_set]
  · intro k _
    rw [vget_foldl_set, length_foldl_set, vget_foldl_set]
    by_cases hk : k < n ∧ k < v.length
    · simp [hk, hinv]
    · simp [hk]

/-- Undoing a loop of updates of row `a` entry by entry gives the matrix back. -/
theorem foldl_mset_inverse (g h : Nat → Int → Int) (hinv : ∀ j x, h j (g j x) = x) (a n : Nat)
    (m : List (List Int)) :
    (List.range n).foldl (fun m j => mset m a j (h j (mget m a j)))
      ((List.range n).foldl (fun m j => mset m a j (g j (mget m a j))) m) = m := by
  rw [foldl_mset g, foldl_mset h]
  by_cases ha : a < m.length
  · have hrow : (m.set a ((List.range n).foldl (fun w j => w.set j (g j (vget w j)))
        (m.getD a []))).getD a [] =
        (List.range n).foldl (fun w j => w.set j (g j (vget w j))) (m.getD a []) := by
      simp [List.getD_eq_getElem?_getD, ha]
    rw [hrow, foldl_set_inverse g h hinv, List.set_set, set_getD_self]
  · have hle := Nat.le_of_not_lt ha
    rw [List.set_eq_of_length_le hle, List.set_eq_of_length_le hle]

/-! ## The loops over the resource types -/

theorem foldl_allocateStep (a : Nat) (req : List Int) (l : List Nat) (s : State) :
    l.foldl (allocateStep a req) s =
      { s with
        available := l.foldl (fun w j => w.set j (vget w j - vget req j)) s.available
        allocation := l.foldl (fun m j => mset m a j (mget m a j + vget req j)) s.allocation
        need := l.foldl (fun m j => mset m a j (mget m a j - vget req j)) s.need } := by
  induction l generalizing s with
  | nil => rfl
  | cons j l ih =>
    simp only [List.foldl_cons]
    rw [ih]
    rfl

theorem foldl_rollbackStep (a : Nat) (req : List Int) (l : List Nat) (s : State) :
    l.foldl (rollbackStep a req) s =
      { s with
        available := l.foldl (fun w j => w.set j (vget w j + vget req j)) s.available
        allocation := l.foldl (fun m j => mset m a j (mget m a j - vget req j)) s.allocation
        need := l.foldl (fun m j => mset m a j (mget m a j + vget req j)) s.need } := by
  induction l generalizing s with
  | nil => rfl
  | cons j l ih =>
    simp only [List.foldl_cons]
    rw [ih]
    rfl

theorem foldl_releaseStep (a : Nat) (l : List Nat) (s : State) :
    (l.foldl (releaseStep a) s).numProcesses = s.numProcesses ∧
    (l.foldl (releaseStep a) s).numResources = s.numResources ∧
    (l.foldl (releaseStep a) s).maximum = s.maximum ∧
    (l.foldl (releaseStep a) s).finished = s.finished ∧
    (l.foldl (releaseStep a) s).available.length = s.available.length ∧
    (l.foldl (releaseStep a) s).allocation = l.foldl (fun m j => mset m a j 0) s.allocation ∧
    (l.foldl (releaseStep a) s).need = l.foldl (fun m j => mset m a j 0) s.need := by
  induction l generalizing s with
  | nil => simp
  | cons j l ih =>
    simp only [List.foldl_cons]
    obtain ⟨h1, h2, h3, h4, h5, h6, h7⟩ := ih (releaseStep a s j)
    refine ⟨h1, h2, h3, h4, ?_, h6, h7⟩
    rw [h5]
    simp [releaseStep]

/-- The loop `for j < n: m[a][j] = 0` replaces row `a`. -/
theorem foldl_mset_zero (a : Nat) (l : List Nat) (m : List (List Int)) :
    l.foldl (fun m j => mset m a j 0) m =
      m.set a (l.foldl (fun w j => w.set j 0) (m.getD a [])) := by
  have h := foldl_mset (fun _ _ => 0) a l m
  simpa using h

/-- The entries of `available` after the first `n` iterations of the release loop. -/
theorem releaseStep_available (a n : Nat) (s : State) (k : Nat) :
    vget ((List.range n).foldl (releaseStep a) s).available k =
      if k < n ∧ k < s.available.length then vget s.available k + mget s.allocation a k
      else vget s.available k := by
  induction n generalizing k with
  | zero => simp
  | succ n ih =>
    rw [List.range_succ, List.foldl_append]
    simp only [List.foldl_cons, List.foldl_nil]
    obtain ⟨-, -, -, -, h5, h6, -⟩ := foldl_releaseStep a (List.range n) s
    have hrow : mget ((List.range n).foldl (releaseStep a) s).allocation a n =
        mget s.allocation a n := by
      rw [h6, foldl_mset_zero, mget_set_row]
      split
      · have h := vget_foldl_set (fun _ _ => 0) n (s.allocation.getD a []) n
        simp only at h
        rw [h]
        simp [mget]
      · rfl
    show vget (((List.range n).foldl (releaseStep a) s).available.set n _) k = _
    rw [vget_set, h5, hrow, ih k, ih n]
    by_cases hnk : n = k
    · subst hnk
      by_cases hlt : n < s.available.length
      · simp [hlt]
      · simp [hlt]
    · have : k < n + 1 ↔ k < n := by omega
      simp [hnk, this]

/-- The rollback loop undoes the tentative allocation exactly. -/
theorem rollback_allocate (s : State) (a : Nat) (req : List Int) :
    rollback (allocate s a req) a req = s := by
  unfold rollback allocate
  rw [foldl_allocateStep, foldl_rollbackStep]
  simp only
  have h1 := foldl_set_inverse (fun j x => x - vget req j) (fun j x => x + vget req j)
    (fun j x => by simp) s.numResources s.available
  have h2 := foldl_mset_inverse (fun j x => x + vget req j) (fun j x => x - vget req j)
    (fun j x => by simp) a s.numResources s.allocation
  have h3 := foldl_mset_inverse (fun j x => x - vget req j) (fun j x => x + vget req j)
    (fun j x => by simp) a s.numResources s.need
  simp only at h1 h2 h3
  rw [h1, h2, h3]

/-! ## The safety algorithm -/

theorem canAllocate_iff (s : State) (work : List Int) (i : Nat) :
    canAllocate s work i = true ↔ ∀ j, j < s.numResources → mget s.need i j ≤ vget work j := by
  simp [canAllocate, List.all_eq_true]

theorem allFinished_iff (s : State) (finish : List Bool) :
    allFinished s finish = true ↔
      ∀ i, i < s.numProcesses → finish.getD i false = true ∨ s.finished.getD i false = true := by
  simp [allFinished, List.all_eq_true]

theorem visit_eq (s : State) : isSafe.visit s = findSafeSequence.visit s := rfl

/-- The two outcomes of one step of the scan: nothing changes, or actor `i` is marked. -/
theorem visit_cases (s : State) (sim : Sim) (i : Nat) :
    (findSafeSequence.visit s sim i = sim ∧
      ¬(sim.finish.getD i false = false ∧ s.finished.getD i false = false ∧
        canAllocate s sim.work i = true)) ∨
    (sim.finish.getD i false = false ∧ s.finished.getD i false = false ∧
      canAllocate s sim.work i = true ∧
      findSafeSequence.visit s sim i =
        { work := addAllocation s sim.work i
          finish := sim.finish.set i true
          sequence := sim.sequence ++ [i]
          found := true
          count := sim.count + 1 }) := by
  unfold findSafeSequence.visit
  by_cases h1 : sim.finish.getD i false = false
  · by_cases h2 : s.finished.getD i false = false
    · by_cases h3 : canAllocate s sim.work i = true
      · right
        refine ⟨h1, h2, h3, ?_⟩
        rw [h1, h2, if_pos (by decide), if_pos h3]
      · left
        refine ⟨?_, fun h => h3 h.2.2⟩
        rw [h1, h2, if_pos (by decide), if_neg h3]
    · left
      refine ⟨?_, fun h => h2 h.2.1⟩
      rw [eq_true_of_ne_false h2, h1, if_neg (by decide)]
  · left
    refine ⟨?_, fun h => h1 h.1⟩
    rw [eq_true_of_ne_false h1, if_neg (by simp)]

theorem vget_addAllocation (s : State) (work : List Int) (i k : Nat) :
    vget (addAllocation s work i) k =
      if k < s.numResources ∧ k < work.length then vget work k + mget s.allocation i k
      else vget work k := by
  have h := vget_foldl_set (fun j x => x + mget s.allocation i j) s.numResources work k
  simpa [addAllocation] using h

theorem length_addAllocation (s : State) (work : List Int) (i : Nat) :
    (addAllocation s work i).length = work.length := by
  have h := length_foldl_set (fun j x => x + mget s.allocation i j) (List.range s.numResources) work
  simpa [addAllocation] using h

theorem getD_replicate_false (n i : Nat) : (List.replicate n false).getD i false = false := by
  simp only [List.getD_eq_getElem?_getD, List.getElem?_replicate]
  split <;> rfl

theorem simInv_init (s : State) (hwf : WF s) : SimInv s (Sim.init s) where
  finish_len := by simp [Sim.init]
  work_len := hwf.1
  count_eq := rfl
  nodup := List.nodup_nil
  mem_iff := by
    intro i
    show i ∈ [] ↔ (List.replicate s.numProcesses false).getD i false = true
    rw [getD_replicate_false]
    simp
  active := by
    intro i hi
    cases hi
  work_eq := by
    intro j _
    simp [Sim.init]
  safe := by
    intro k hk
    simp [Sim.init] at hk

theorem simInv_resetFound {s : State} {sim : Sim} (h : SimInv s sim) :
    SimInv s { sim with found := false } :=
  ⟨h.finish_len, h.work_len, h.count_eq, h.nodup, h.mem_iff, h.active, h.work_eq, h.safe⟩

/-- One step of the scan keeps the loop invariant. -/
theorem simInv_visit {s : State} {sim : Sim} (h : SimInv s sim) (i : Nat)
    (hi : i < s.numProcesses) : SimInv s (findSafeSequence.visit s sim i) := by
  rcases visit_cases s sim i with ⟨heq, -⟩ | ⟨h1, h2, h3, heq⟩
  · rw [heq]
    exact h
  · rw [heq]
    have hnot : i ∉ sim.sequence := by
      intro hm
      have := (h.mem_iff i).1 hm
      rw [h1] at this
      cases this
    have hfit := (canAllocate_iff s sim.work i).1 h3
    refine ⟨?_, ?_, ?_, ?_, ?_, ?_, ?_, ?_⟩
    · show (sim.finish.set i true).length = _
      rw [List.length_set]
      exact h.finish_len
    · show (addAllocation s sim.work i).length = _
      rw [length_addAllocation]
      exact h.work_len
    · show sim.count + 1 = (sim.sequence ++ [i]).length
      rw [List.length_append, h.count_eq]
      rfl
    · show (sim.sequence ++ [i]).Nodup
      exact List.Nodup.append h.nodup (List.nodup_singleton i) (by simpa using hnot)
    · intro i2
      show i2 ∈ sim.sequence ++ [i] ↔ (sim.finish.set i true).getD i2 false = true
      rw [getD_set, List.mem_append, List.mem_singleton, h.mem_iff i2]
      by_cases hii : i = i2
      · subst hii
        have : i < sim.finish.length := by rw [h.finish_len]; exact hi
        simp [this]
      · have : ¬ i2 = i := fun e => hii e.symm
        simp [hii, this]
    · intro i2 hi2
      rcases List.mem_append.1 hi2 with hm | hm
      · exact h.active i2 hm
      · rw [List.mem_singleton.1 hm]
        exact ⟨hi, h2⟩
    · intro j hj
      show vget (addAllocation s sim.work i) j = _
      rw [vget_addAllocation, if_pos ⟨hj, by rw [h.work_len]; exact hj⟩, h.work_eq j hj]
      show _ = vget s.available j + ((sim.sequence ++ [i]).map fun i => mget s.allocation i j).sum
      rw [List.map_append, List.sum_append]
      simp
      ring
    · intro k hk j hj
      have hk2 : k < (sim.sequence ++ [i]).length := hk
      rw [List.length_append, List.length_singleton] at hk2
      show mget s.need ((sim.sequence ++ [i]).getD k 0) j ≤
        vget s.available j + (((sim.sequence ++ [i]).take k).map fun i => mget s.allocation i j).sum
      by_cases hlt : k < sim.sequence.length
      · rw [List.getD_append _ _ _ _ hlt, List.take_append_of_le_length (Nat.le_of_lt hlt)]
        exact h.safe k hlt j hj
      · have hke : k = sim.sequence.length := by omega
        rw [List.getD_append_right _ _ _ _ (Nat.le_of_not_lt hlt),
          List.take_append_of_le_length (Nat.le_of_eq hke), hke, List.take_length]
        simp only [Nat.sub_self]
        show mget s.need i j ≤ _
        rw [← h.work_eq j hj]
        exact hfit j hj

/-- A scan keeps the loop invariant. -/
theorem simInv_scan {s : State} (l : List Nat) (hl : ∀ i, i ∈ l → i < s.numProcesses)
    {sim : Sim} (h : SimInv s sim) : SimInv s (l.foldl (findSafeSequence.visit s) sim) := by
  induction l generalizing sim with
  | nil => exact h
  | cons i l ih =>
    simp only [List.foldl_cons]
    exact ih (fun i2 hi2 => hl i2 (List.mem_cons_of_mem _ hi2))
      (simInv_visit h i (hl i (List.mem_cons_self _ _)))

theorem visit_found (s : State) (sim : Sim) (i : Nat) (h : sim.found = true) :
    (findSafeSequence.visit s sim i).found = true := by
  rcases visit_cases s sim i with ⟨heq, -⟩ | ⟨-, -, -, heq⟩
  · rw [heq]
    exact h
  · rw [heq]

theorem scan_found (s : State) (l : List Nat) (sim : Sim) (h : sim.found = true) :
    (l.foldl (findSafeSequence.visit s) sim).found = true := by
  induction l generalizing sim with
  | nil => exact h
  | cons i l ih =>
    simp only [List.foldl_cons]
    exact ih _ (visit_found s sim i h)

/-- A scan never lowers `count`, and raises it when it sets `found`. -/
theorem scan_count (s : State) (l : List Nat) (sim : Sim) :
    sim.count ≤ (l.foldl (findSafeSequence.visit s) sim).count ∧
    ((l.foldl (findSafeSequence.visit s) sim).found = true →
      sim.found = true ∨ sim.count < (l.foldl (findSafeSequence.visit s) sim).count) := by
  induction l generalizing sim with
  | nil => exact ⟨Nat.le_refl _, fun h => Or.inl h⟩
  | cons i l ih =>
    simp only [List.foldl_cons]
    obtain ⟨hle, hfound⟩ := ih (findSafeSequence.visit s sim i)
    rcases visit_cases s sim i with ⟨heq, -⟩ | ⟨-, -, -, heq⟩
    · rw [heq] at hle hfound ⊢
      exact ⟨hle, hfound⟩
    · rw [heq] at hle hfound ⊢
      have hlt : sim.count < (l.foldl (findSafeSequence.visit s)
          { work := addAllocation s sim.work i
            finish := sim.finish.set i true
            sequence := sim.sequence ++ [i]
            found := true
            count := sim.count + 1 }).count := hle
      exact ⟨Nat.le_of_lt hlt, fun _ => Or.inr hlt⟩

/-- A scan that ends with `found == false` changed nothing and met no actor it could mark. -/
theorem scan_stuck (s : State) (l : List Nat) (sim : Sim)
    (h : (l.foldl (findSafeSequence.visit s) sim).found = false) :
    l.foldl (findSafeSequence.visit s) sim = sim ∧
    ∀ i, i ∈ l → ¬(sim.finish.getD i false = false ∧ s.finished.getD i false = false ∧
      canAllocate s sim.work i = true) := by
  induction l generalizing sim with
  | nil => exact ⟨rfl, fun i hi => by cases hi⟩
  | cons i l ih =>
    simp only [List.foldl_cons] at h ⊢
    rcases visit_cases s sim i with ⟨heq, hno⟩ | ⟨-, -, -, heq⟩
    · rw [heq] at h ⊢
      obtain ⟨h1, h2⟩ := ih sim h
      refine ⟨h1, fun i2 hi2 => ?_⟩
      rcases List.mem_cons.1 hi2 with e | hm
      · rw [e]
        exact hno
      · exact h2 i2 hm
    · rw [heq] at h
      rw [scan_found s l _ rfl] at h
      cases h

/-- The `while` loop of `isSafe` returns what the one of `findSafeSequence` returns. -/
theorem isSafe_loop_eq (s : State) (fuel : Nat) (sim : Sim) :
    isSafe.loop s fuel sim = (findSafeSequence.loop s fuel sim).map Prod.fst := by
  induction fuel generalizing sim with
  | zero => rfl
  | succ fuel ih =>
    unfold isSafe.loop findSafeSequence.loop
    rw [visit_eq]
    simp only
    split
    · split
      · split <;> rfl
      · exact ih _
    · rfl

theorem isSafe_eq (s : State) : isSafe s = (findSafeSequence s).map Prod.fst :=
  isSafe_loop_eq s _ _

/-- With more fuel than `numProcesses - count` the `while` loop returns. -/
theorem findSafeSequence_loop_total (s : State) (fuel : Nat) (sim : Sim)
    (h : s.numProcesses - sim.count < fuel) :
    ∃ r, findSafeSequence.loop s fuel sim = some r := by
  induction fuel generalizing sim with
  | zero => omega
  | succ fuel ih =>
    unfold findSafeSequence.loop
    simp only
    split
    · rename_i hlt
      split
      · split
        · exact ⟨_, rfl⟩
        · exact ⟨_, rfl⟩
      · rename_i hf
        have hfound : ((List.range s.numProcesses).foldl (findSafeSequence.visit s)
            { sim with found := false }).found = true := by simpa using hf
        have hc := (scan_count s (List.range s.numProcesses) { sim with found := false }).2 hfound
        rcases hc with hc | hc
        · cases hc
        · apply ih
          have hc2 : sim.count < ((List.range s.numProcesses).foldl (findSafeSequence.visit s)
            { sim with found := false }).count := hc
          omega
    · exact ⟨_, rfl⟩

/-- `findSafeSequence` returns on every state. -/
theorem findSafeSequence_total (s : State) : ∃ r, findSafeSequence s = some r :=
  findSafeSequence_loop_total s _ _ (by simp [Sim.init])

/-- `isSafe` returns on every state. -/
theorem isSafe_total (s : State) : ∃ b, isSafe s = some b := by
  obtain ⟨r, hr⟩ := findSafeSequence_total s
  exact ⟨r.1, by rw [isSafe_eq, hr]; rfl⟩

/-- A duplicate-free list of numbers below `n` that has at least `n` entries lists all of
them. -/
theorem mem_of_nodup_of_length {n : Nat} {l : List Nat} (hnd : l.Nodup)
    (hlt : ∀ i, i ∈ l → i < n) (hlen : n ≤ l.length) (i : Nat) (hi : i < n) : i ∈ l := by
  have hsub : l ⊆ List.range n := fun x hx => List.mem_range.2 (hlt x hx)
  have hperm := (List.subperm_of_subset hnd hsub).perm_of_length_le
    (by rw [List.length_range]; exact hlen)
  exact hperm.symm.subset (List.mem_range.2 hi)

/-- When the `while` loop of `findSafeSequence` returns `true`, the sequence is a safe order
of exactly the active actors. -/
theorem findSafeSequence_loop_sound (s : State) (fuel : Nat) (sim : Sim) (hinv : SimInv s sim)
    (seq : List Nat) (h : findSafeSequence.loop s fuel sim = some (true, seq)) :
    seq.Nodup ∧ (∀ i, i ∈ seq ↔ Active s i) ∧ SafeSequence s seq := by
  induction fuel generalizing sim with
  | zero => cases h
  | succ fuel ih =>
    unfold findSafeSequence.loop at h
    simp only at h
    have hinv1 : SimInv s ((List.range s.numProcesses).foldl (findSafeSequence.visit s)
        { sim with found := false }) :=
      simInv_scan _ (fun i hi => List.mem_range.1 hi) (simInv_resetFound hinv)
    split at h
    · split at h
      · split at h
        · rename_i hall
          have hseq : seq = _ := (Prod.mk.inj (Option.some.inj h)).2.symm
          rw [hseq]
          refine ⟨hinv1.nodup, fun i => ⟨hinv1.active i, fun hact => ?_⟩, hinv1.safe⟩
          rcases (allFinished_iff s _).1 hall i hact.1 with hm | hf
          · exact (hinv1.mem_iff i).2 hm
          · rw [hact.2] at hf
            cases hf
        · cases (Prod.mk.inj (Option.some.inj h)).1
      · exact ih _ hinv1 h
    · rename_i hge
      have hseq : seq = sim.sequence := (Prod.mk.inj (Option.some.inj h)).2.symm
      rw [hseq]
      refine ⟨hinv.nodup, fun i => ⟨hinv.active i, fun hact => ?_⟩, hinv.safe⟩
      refine mem_of_nodup_of_length hinv.nodup (fun x hx => (hinv.active x hx).1) ?_ i hact.1
      rw [← hinv.count_eq]
      exact Nat.le_of_not_lt hge

/-- Over non-negative entries, a duplicate-free list drawn from `q` sums to at most the sum
over `q`. -/
theorem sum_map_le_of_subset (f : Nat → Int) (p q : List Nat) (hp : p.Nodup) (hsub : p ⊆ q)
    (hf : ∀ i, i ∈ q → 0 ≤ f i) : (p.map f).sum ≤ (q.map f).sum := by
  obtain ⟨l, hperm, hsl⟩ := List.subperm_of_subset hp hsub
  rw [← (hperm.map f).sum_eq]
  apply (hsl.map f).sum_le_sum
  intro a ha
  obtain ⟨i, hi, rfl⟩ := List.mem_map.1 ha
  exact hf i hi

/-- In a state with a safe order `σ` of the active actors and non-negative allocations, a
scan that marks nobody has nobody left to mark: every actor of `σ` is already in the
sequence. -/
theorem stuck_all_marked (s : State)
    (hnonneg : ∀ i j, i < s.numProcesses → j < s.numResources → 0 ≤ mget s.allocation i j)
    (σ : List Nat) (hnd : σ.Nodup) (hmem : ∀ i, i ∈ σ → Active s i) (hsafe : SafeSequence s σ)
    (sim : Sim) (hinv : SimInv s sim)
    (hstuck : ∀ i, i < s.numProcesses → ¬(sim.finish.getD i false = false ∧
      s.finished.getD i false = false ∧ canAllocate s sim.work i = true))
    (p : List Nat) : ∀ rest, σ = p ++ rest → ∀ i, i ∈ p → i ∈ sim.sequence := by
  induction p using List.reverseRecOn with
  | nil =>
    intro rest _ i hi
    cases hi
  | append_singleton p x ih =>
    intro rest hσ i hi
    have hσ2 : σ = p ++ ([x] ++ rest) := by rw [hσ, List.append_assoc]
    have hp := ih _ hσ2
    rcases List.mem_append.1 hi with hm | hm
    · exact hp i hm
    · rw [List.mem_singleton.1 hm]
      have hxσ : x ∈ σ := by rw [hσ2]; simp
      have hact := hmem x hxσ
      have hk : p.length < σ.length := by rw [hσ2]; simp
      have hget : σ.getD p.length 0 = x := by
        rw [hσ2, List.getD_append_right _ _ _ _ (Nat.le_refl _)]
        simp
      have htake : σ.take p.length = p := by
        rw [hσ2, List.take_append_of_le_length (Nat.le_refl _), List.take_length]
      have hpnd : p.Nodup := by
        rw [hσ2] at hnd
        exact (List.nodup_append.1 hnd).1
      have hcan : canAllocate s sim.work x = true := by
        rw [canAllocate_iff]
        intro j hj
        have h1 := hsafe p.length hk j hj
        rw [hget, htake] at h1
        have h2 := sum_map_le_of_subset (fun i => mget s.allocation i j) p sim.sequence hpnd hp
          (fun i hi => hnonneg i j (hinv.active i hi).1 hj)
        rw [hinv.work_eq j hj]
        linarith
      have hfin : sim.finish.getD x false = true := by
        by_contra hne
        exact hstuck x hact.1 ⟨eq_false_of_ne_true hne, hact.2, hcan⟩
      exact (hinv.mem_iff x).2 hfin

/-- In a state with a safe order of the active actors and non-negative allocations, the
`while` loop of `findSafeSequence` can only return `true`. -/
theorem findSafeSequence_loop_complete (s : State)
    (hnonneg : ∀ i j, i < s.numProcesses → j < s.numResources → 0 ≤ mget s.allocation i j)
    (σ : List Nat) (hnd : σ.Nodup) (hmem : ∀ i, i ∈ σ ↔ Active s i) (hsafe : SafeSequence s σ)
    (fuel : Nat) (sim : Sim) (hinv : SimInv s sim) (r : Bool × List Nat)
    (h : findSafeSequence.loop s fuel sim = some r) : r.1 = true := by
  induction fuel generalizing sim with
  | zero => cases h
  | succ fuel ih =>
    unfold findSafeSequence.loop at h
    simp only at h
    split at h
    · split at h
      · rename_i hnf
        have hfound : ((List.range s.numProcesses).foldl (findSafeSequence.visit s)
            { sim with found := false }).found = false := by simpa using hnf
        obtain ⟨heq, hstuck⟩ := scan_stuck s _ _ hfound
        rw [heq] at h
        split at h
        · rw [← Option.some.inj h]
        · rename_i hall
          exfalso
          apply hall
          rw [allFinished_iff]
          intro i hi
          by_cases hf : s.finished.getD i false = true
          · exact Or.inr hf
          · left
            have hact : Active s i := ⟨hi, eq_false_of_ne_true hf⟩
            have hin := stuck_all_marked s hnonneg σ hnd (fun i hi => (hmem i).1 hi) hsafe sim
              hinv (fun i hi => hstuck i (List.mem_range.2 hi)) σ [] (by simp) i
              ((hmem i).2 hact)
            exact (hinv.mem_iff i).1 hin
      · exact ih _ (simInv_scan _ (fun i hi => List.mem_range.1 hi) (simInv_resetFound hinv)) h
    · rw [← Option.some.inj h]

/-! ## Effect of the tentative allocation and of the release on the tables -/

theorem allocate_eq (s : State) (a : Nat) (req : List Int) :
    allocate s a req =
      { s with
        available := (List.range s.numResources).foldl
          (fun w j => w.set j (vget w j - vget req j)) s.available
        allocation := s.allocation.set a ((List.range s.numResources).foldl
          (fun w j => w.set j (vget w j + vget req j)) (s.allocation.getD a []))
        need := s.need.set a ((List.range s.numResources).foldl
          (fun w j => w.set j (vget w j - vget req j)) (s.need.getD a [])) } := by
  unfold allocate
  rw [foldl_allocateStep]
  have h2 := foldl_mset (fun j x => x + vget req j) a (List.range s.numResources) s.allocation
  have h3 := foldl_mset (fun j x => x - vget req j) a (List.range s.numResources) s.need
  simp only at h2 h3
  rw [h2, h3]

theorem releaseResources_eq (s : State) (a : Nat) (h : s.finished.getD a false = false) :
    releaseResources s a =
      { s with
        available := ((List.range s.numResources).foldl (releaseStep a) s).available
        allocation := s.allocation.set a ((List.range s.numResources).foldl
          (fun w j => w.set j 0) (s.allocation.getD a []))
        need := s.need.set a ((List.range s.numResources).foldl
          (fun w j => w.set j 0) (s.need.getD a []))
        finished := s.finished.set a true } := by
  unfold releaseResources
  rw [h, if_neg (by decide)]
  obtain ⟨h1, h2, h3, h4, -, h6, h7⟩ := foldl_releaseStep a (List.range s.numResources) s
  rw [foldl_mset_zero] at h6 h7
  generalize (List.range s.numResources).foldl (releaseStep a) s = t at *
  cases t
  simp only at h1 h2 h3 h4 h6 h7
  simp only [h1, h2, h3, h4, h6, h7]

theorem wf_row {s : State} (hwf : WF s) {a : Nat} (ha : a < s.numProcesses) :
    (s.allocation.getD a []).length = s.numResources ∧
    (s.need.getD a []).length = s.numResources ∧
    (s.maximum.getD a []).length = s.numResources := by
  obtain ⟨-, -, h3, h4, h5, h6, h7, h8⟩ := hwf
  refine ⟨h7 _ ?_, h8 _ ?_, h6 _ ?_⟩
  · rw [List.getD_eq_getElem _ _ (by rw [h4]; exact ha)]
    exact List.getElem_mem _
  · rw [List.getD_eq_getElem _ _ (by rw [h5]; exact ha)]
    exact List.getElem_mem _
  · rw [List.getD_eq_getElem _ _ (by rw [h3]; exact ha)]
    exact List.getElem_mem _

/-- Replacing a row by one of the same length keeps every row at length `n`. -/
theorem rows_set {n : Nat} (m : List (List Int)) (a : Nat) (row : List Int)
    (hm : ∀ r, r ∈ m → r.length = n) (hrow : row.length = (m.getD a []).length) :
    ∀ r, r ∈ m.set a row → r.length = n := by
  intro r hr
  by_cases ha : a < m.length
  · rcases List.mem_or_eq_of_mem_set hr with h | h
    · exact hm r h
    · rw [h, hrow]
      apply hm
      rw [List.getD_eq_getElem _ _ ha]
      exact List.getElem_mem _
  · rw [List.set_eq_of_length_le (Nat.le_of_not_lt ha)] at hr
    exact hm r hr

theorem wf_allocate {s : State} (hwf : WF s) (a : Nat) (req : List Int) :
    WF (allocate s a req) := by
  obtain ⟨h1, h2, h3, h4, h5, h6, h7, h8⟩ := hwf
  rw [allocate_eq]
  have l1 := length_foldl_set (fun j x => x - vget req j) (List.range s.numResources) s.available
  have l2 := length_foldl_set (fun j x => x + vget req j) (List.range s.numResources)
    (s.allocation.getD a [])
  have l3 := length_foldl_set (fun j x => x - vget req j) (List.range s.numResources)
    (s.need.getD a [])
  simp only at l1 l2 l3
  refine ⟨?_, h2, h3, ?_, ?_, h6, ?_, ?_⟩
  · show ((List.range s.numResources).foldl _ s.available).length = s.numResources
    rw [l1, h1]
  · show (s.allocation.set a _).length = s.numProcesses
    rw [List.length_set, h4]
  · show (s.need.set a _).length = s.numProcesses
    rw [List.length_set, h5]
  · exact rows_set s.allocation a _ h7 l2
  · exact rows_set s.need a _ h8 l3

theorem wf_releaseResources {s : State} (hwf : WF s) (a : Nat) : WF (releaseResources s a) := by
  by_cases hfin : s.finished.getD a false = false
  · obtain ⟨h1, h2, h3, h4, h5, h6, h7, h8⟩ := hwf
    rw [releaseResources_eq s a hfin]
    have l1 := (foldl_releaseStep a (List.range s.numResources) s).2.2.2.2.1
    have l2 := length_foldl_set (fun _ _ => 0) (List.range s.numResources)
      (s.allocation.getD a [])
    have l3 := length_foldl_set (fun _ _ => 0) (List.range s.numResources) (s.need.getD a [])
    simp only at l2 l3
    refine ⟨?_, ?_, h3, ?_, ?_, h6, ?_, ?_⟩
    · show ((List.range s.numResources).foldl (releaseStep a) s).available.length = _
      rw [l1, h1]
    · show (s.finished.set a true).length = s.numProcesses
      rw [List.length_set, h2]
    · show (s.allocation.set a _).length = s.numProcesses
      rw [List.length_set, h4]
    · show (s.need.set a _).length = s.numProcesses
      rw [List.length_set, h5]
    · exact rows_set s.allocation a _ h7 l2
    · exact rows_set s.need a _ h8 l3
  · unfold releaseResources
    rw [eq_true_of_ne_false hfin, if_pos rfl]
    exact hwf

/-- The tables after the tentative allocation, entry by entry. -/
theorem allocate_entries {s : State} (hwf : WF s) {a : Nat} (ha : a < s.numProcesses)
    (req : List Int) (j : Nat) (hj : j < s.numResources) :
    vget (allocate s a req).available j = vget s.available j - vget req j ∧
    (∀ i, mget (allocate s a req).allocation i j =
      if i = a then mget s.allocation a j + vget req j else mget s.allocation i j) ∧
    (∀ i, mget (allocate s a req).need i j =
      if i = a then mget s.need a j - vget req j else mget s.need i j) := by
  obtain ⟨r1, r2, -⟩ := wf_row hwf ha
  obtain ⟨h1, -, -, h4, h5, -, -, -⟩ := hwf
  rw [allocate_eq]
  have e1 := vget_foldl_set (fun j x => x - vget req j) s.numResources s.available j
  have e2 := vget_foldl_set (fun j x => x + vget req j) s.numResources (s.allocation.getD a []) j
  have e3 := vget_foldl_set (fun j x => x - vget req j) s.numResources (s.need.getD a []) j
  simp only at e1 e2 e3
  rw [if_pos ⟨hj, by rw [h1]; exact hj⟩] at e1
  rw [if_pos ⟨hj, by rw [r1]; exact hj⟩] at e2
  rw [if_pos ⟨hj, by rw [r2]; exact hj⟩] at e3
  refine ⟨e1, fun i => ?_, fun i => ?_⟩
  · show mget (s.allocation.set a _) i j = _
    rw [mget_set_row]
    by_cases hia : i = a
    · subst hia
      rw [if_pos ⟨rfl, by rw [h4]; exact ha⟩, if_pos rfl, e2]
      rfl
    · rw [if_neg (fun h => hia h.1.symm), if_neg hia]
  · show mget (s.need.set a _) i j = _
    rw [mget_set_row]
    by_cases hia : i = a
    · subst hia
      rw [if_pos ⟨rfl, by rw [h5]; exact ha⟩, if_pos rfl, e3]
      rfl
    · rw [if_neg (fun h => hia h.1.symm), if_neg hia]

theorem allocate_frame (s : State) (a : Nat) (req : List Int) :
    (allocate s a req).numProcesses = s.numProcesses ∧
    (allocate s a req).numResources = s.numResources ∧
    (allocate s a req).maximum = s.maximum ∧
    (allocate s a req).finished = s.finished := by
  rw [allocate_eq]
  exact ⟨rfl, rfl, rfl, rfl⟩

theorem vget_replicate_zero (n j : Nat) : vget (List.replicate n 0) j = 0 := by
  unfold vget
  simp only [List.getD_eq_getElem?_getD, List.getElem?_replicate]
  split <;> rfl

/-- The release of an active actor, in closed form. -/
theorem releaseResources_active {s : State} (hwf : WF s) {a : Nat} (ha : a < s.numProcesses)
    (hfin : s.finished.getD a false = false) :
    (releaseResources s a).numProcesses = s.numProcesses ∧
    (releaseResources s a).numResources = s.numResources ∧
    (releaseResources s a).maximum = s.maximum ∧
    (releaseResources s a).finished = s.finished.set a true ∧
    (releaseResources s a).allocation = s.allocation.set a (List.replicate s.numResources 0) ∧
    (releaseResources s a).need = s.need.set a (List.replicate s.numResources 0) ∧
    ∀ j, j < s.numResources →
      vget (releaseResources s a).available j = vget s.available j + mget s.allocation a j := by
  obtain ⟨r1, r2, -⟩ := wf_row hwf ha
  rw [releaseResources_eq s a hfin]
  refine ⟨rfl, rfl, rfl, rfl, ?_, ?_, ?_⟩
  · show s.allocation.set a _ = _
    rw [foldl_set_zero _ _ r1]
  · show s.need.set a _ = _
    rw [foldl_set_zero _ _ r2]
  · intro j hj
    show vget ((List.range s.numResources).foldl (releaseStep a) s).available j = _
    rw [releaseStep_available, if_pos ⟨hj, by rw [hwf.1]; exact hj⟩]

theorem exceedsNeed_iff (s : State) (a : Nat) (req : List Int) :
    exceedsNeed s a req = true ↔ ∃ j, j < s.numResources ∧ vget req j > mget s.need a j := by
  simp [exceedsNeed, List.any_eq_true]

theorem exceedsNeed_eq_false_iff (s : State) (a : Nat) (req : List Int) :
    exceedsNeed s a req = false ↔ ∀ j, j < s.numResources → vget req j ≤ mget s.need a j := by
  rw [← Bool.not_eq_true, exceedsNeed_iff]
  push_neg
  rfl

theorem resourcesAvailable_iff (s : State) (req : List Int) :
    resourcesAvailable s req = true ↔
      ∀ j, j < s.numResources → vget req j ≤ vget s.available j := by
  simp [resourcesAvailable, List.all_eq_true]

theorem awaitResources_quiet (k : Nat) (s : State) (req : List Int) :
    awaitResources quiet k s req = (s, resourcesAvailable s req) := by
  unfold awaitResources quiet
  cases h : resourcesAvailable s req <;> simp [h]

/-- One iteration of the `while` loop of `requestResources`. -/
theorem requestLoop_succ (env : Env) (a : Nat) (req : List Int) (maxRetries : Int)
    (fuel retries : Nat) (s : State) :
    requestResources.loop env a req maxRetries (fuel + 1) retries s =
      if (retries : Int) < maxRetries then
        if exceedsNeed s a req then
          some { ret := false, exit := Exit.exceedsNeed, state := s }
        else
          match awaitResources env retries s req with
          | (s1, false) => requestResources.loop env a req maxRetries fuel (retries + 1) s1
          | (s1, true) =>
            match isSafe (allocate s1 a req) with
            | none => none
            | some true =>
              some { ret := true, exit := Exit.granted, state := allocate s1 a req }
            | some false =>
              requestResources.loop env a req maxRetries fuel (retries + 1)
                (env Wait.backoff retries (rollback (allocate s1 a req) a req))
      else some { ret := false, exit := Exit.maxRetries, state := s } := rfl

/-- The result of the `while` loop when nobody else acts: the first attempt decides, since a
failed attempt leaves the state as it was and every further attempt fails the same way. -/
theorem requestLoop_quiet (a : Nat) (req : List Int) (maxRetries : Int) (fuel retries : Nat)
    (s : State) (hfuel : (maxRetries - retries).toNat < fuel) :
    requestResources.loop quiet a req maxRetries fuel retries s =
      some (if (retries : Int) < maxRetries then
        if exceedsNeed s a req = true then
          { ret := false, exit := Exit.exceedsNeed, state := s }
        else if resourcesAvailable s req = true ∧ isSafe (allocate s a req) = some true then
          { ret := true, exit := Exit.granted, state := allocate s a req }
        else { ret := false, exit := Exit.maxRetries, state := s }
      else { ret := false, exit := Exit.maxRetries, state := s }) := by
  induction fuel generalizing retries with
  | zero => omega
  | succ fuel ih =>
    rw [requestLoop_succ]
    by_cases hlt : (retries : Int) < maxRetries
    · rw [if_pos hlt, if_pos hlt]
      have hfuel2 : (maxRetries - ((retries + 1 : Nat) : Int)).toNat < fuel := by
        push_cast
        omega
      by_cases hex : exceedsNeed s a req = true
      · rw [if_pos hex, if_pos hex]
      · rw [if_neg hex, if_neg hex, awaitResources_quiet]
        cases hav : resourcesAvailable s req
        · simp only
          rw [ih _ hfuel2]
          simp [hex, hav]
        · simp only
          obtain ⟨b, hb⟩ := isSafe_total (allocate s a req)
          cases b
          · rw [hb]
            simp only
            rw [rollback_allocate]
            show requestResources.loop quiet a req maxRetries fuel (retries + 1) s = _
            rw [ih _ hfuel2]
            simp [hex, hav, hb]
          · rw [hb]
            simp
    · rw [if_neg hlt, if_neg hlt]

/-- The result of `requestResources` for an actor that is not finished, when nobody else
acts. -/
theorem requestResources_quiet (s : State) (a : Nat) (req : List Int) (maxRetries : Int)
    (hact : s.finished.getD a false = false) :
    requestResources quiet s a req maxRetries =
      some (if 0 < maxRetries then
        if exceedsNeed s a req = true then
          { ret := false, exit := Exit.exceedsNeed, state := s }
        else if resourcesAvailable s req = true ∧ isSafe (allocate s a req) = some true then
          { ret := true, exit := Exit.granted, state := allocate s a req }
        else { ret := false, exit := Exit.maxRetries, state := s }
      else { ret := false, exit := Exit.maxRetries, state := s }) := by
  unfold requestResources
  rw [hact, if_neg (by decide)]
  have h := requestLoop_quiet a req maxRetries (maxRetries.toNat + 1) 0 s (by simp)
  simpa using h

/-- Whatever the other threads do, the loop returns `true` only through the `granted` exit,
and then the safety check has just returned `true` on the state it leaves. -/
theorem requestLoop_granted (env : Env) (a : Nat) (req : List Int) (maxRetries : Int)
    (fuel retries : Nat) (s : State) (r : Result)
    (h : requestResources.loop env a req maxRetries fuel retries s = some r) :
    (r.ret = true ↔ r.exit = Exit.granted) ∧ (r.ret = true → isSafe r.state = some true) := by
  induction fuel generalizing retries s with
  | zero => cases h
  | succ fuel ih =>
    rw [requestLoop_succ] at h
    split at h
    · split at h
      · rw [← Option.some.inj h]
        exact ⟨by simp, by simp⟩
      · split at h
        · exact ih _ _ h
        · split at h
          · cases h
          · rename_i hsafe
            rw [← Option.some.inj h]
            exact ⟨by simp, fun _ => hsafe⟩
          · exact ih _ _ h
    · rw [← Option.some.inj h]
      exact ⟨by simp, by simp⟩

/-- The two ways a call can end when nobody else acts: denied with the state as it was, or
granted with the tentative allocation kept. -/
theorem requestResources_quiet_cases (s : State) (a : Nat) (req : List Int) (maxRetries : Int)
    (r : Result) (h : requestResources quiet s a req maxRetries = some r) :
    (r.ret = false ∧ r.state = s) ∨
    (r.ret = true ∧ r.exit = Exit.granted ∧ r.state = allocate s a req ∧
      s.finished.getD a false = false ∧ 0 < maxRetries ∧ exceedsNeed s a req = false ∧
      resourcesAvailable s req = true ∧ isSafe (allocate s a req) = some true) := by
  by_cases hact : s.finished.getD a false = false
  · rw [requestResources_quiet s a req maxRetries hact] at h
    have h := Option.some.inj h
    split at h
    · rename_i hmr
      split at h
      · rw [← h]
        exact Or.inl ⟨rfl, rfl⟩
      · rename_i hex
        split at h
        · rename_i hgo
          rw [← h]
          exact Or.inr ⟨rfl, rfl, rfl, hact, hmr, eq_false_of_ne_true hex, hgo.1, hgo.2⟩
        · rw [← h]
          exact Or.inl ⟨rfl, rfl⟩
    · rw [← h]
      exact Or.inl ⟨rfl, rfl⟩
  · unfold requestResources at h
    rw [eq_true_of_ne_false hact, if_pos rfl] at h
    rw [← Option.some.inj h]
    exact Or.inl ⟨rfl, rfl⟩

theorem reachable_wf {s0 s : State} (hwf : WF s0) (h : Reachable s0 s) : WF s := by
  induction h with
  | init => exact hwf
  | request a req maxRetries r _ _ hr ih =>
    rcases requestResources_quiet_cases _ a req maxRetries r hr with ⟨-, hs⟩ | ⟨-, -, hs, -⟩
    · rw [hs]
      exact ih
    · rw [hs]
      exact wf_allocate ih a req
  | release a _ _ ih => exact wf_releaseResources ih a

theorem construct_ok {processes resources : Nat} {avail : List Int} {max alloc : List (List Int)}
    {s : State} (h : construct processes resources avail max alloc = Except.ok s) :
    s = { numProcesses := processes
          numResources := resources
          available := avail
          maximum := max
          allocation := alloc
          need := (List.range processes).map fun i =>
            (List.range resources).map fun j => mget max i j - mget alloc i j
          finished := List.replicate processes false } := by
  unfold construct at h
  simp only at h
  split at h
  · cases h
  · exact (Except.ok.inj h).symm

/-- Whatever the other threads do, with more fuel than `maxRetries - retries` the `while`
loop of `requestResources` returns. -/
theorem requestLoop_total (env : Env) (a : Nat) (req : List Int) (maxRetries : Int)
    (fuel retries : Nat) (s : State) (hfuel : (maxRetries - retries).toNat < fuel) :
    ∃ r, requestResources.loop env a req maxRetries fuel retries s = some r := by
  induction fuel generalizing retries s with
  | zero => omega
  | succ fuel ih =>
    rw [requestLoop_succ]
    by_cases hlt : (retries : Int) < maxRetries
    · have hfuel2 : (maxRetries - ((retries + 1 : Nat) : Int)).toNat < fuel := by
        push_cast
        omega
      rw [if_pos hlt]
      split
      · exact ⟨_, rfl⟩
      · split
        · exact ih _ _ hfuel2
        · rename_i s1 _
          obtain ⟨b, hb⟩ := isSafe_total (allocate s1 a req)
          rw [hb]
          cases b
          · exact ih _ _ hfuel2
          · exact ⟨_, rfl⟩
    · rw [if_neg hlt]
      exact ⟨_, rfl⟩

/-- `requestResources` returns, whatever the other threads do. -/
theorem requestResources_total (env : Env) (s : State) (a : Nat) (req : List Int)
    (maxRetries : Int) : ∃ r, requestResources env s a req maxRetries = some r := by
  unfold requestResources
  split
  · exact ⟨_, rfl⟩
  · exact requestLoop_total env a req maxRetries _ 0 s (by simp)

/-- A finished actor stays finished along every sequence of calls. -/
theorem reachable_finished {s0 s : State} (h : Reachable s0 s) (a : Nat)
    (hfin : s0.finished.getD a false = true) : s.finished.getD a false = true := by
  induction h with
  | init => exact hfin
  | request b req maxRetries r _ _ hr ih =>
    rcases requestResources_quiet_cases _ b req maxRetries r hr with ⟨-, hs⟩ | ⟨-, -, hs, -⟩
    · rw [hs]
      exact ih
    · rw [hs, (allocate_frame _ b req).2.2.2]
      exact ih
  | @release t b _ _ ih =>
    by_cases hb : t.finished.getD b false = false
    · rw [releaseResources_eq t b hb]
      show (t.finished.set b true).getD a false = true
      rw [getD_set]
      split
      · rfl
      · exact ih
    · unfold releaseResources
      rw [eq_true_of_ne_false hb, if_pos rfl]
      exact ih

theorem awaitResources_state (env : Env) (k : Nat) (s : State) (req : List Int) :
    (awaitResources env k s req).1 = s ∨
    (awaitResources env k s req).1 = env Wait.availability k s := by
  unfold awaitResources
  split
  · right
    simp only
    split
    · rfl
    · rfl
  · exact Or.inl rfl

/-- A property of the state that the other threads keep and the tentative allocation keeps is
kept by the `while` loop of `requestResources`. -/
theorem requestLoop_invariant (env : Env) (a : Nat) (req : List Int) (maxRetries : Int)
    (P : State → Prop) (henv : ∀ w k t, P t → P (env w k t))
    (halloc : ∀ t, P t → P (allocate t a req)) (fuel retries : Nat) (s : State) (r : Result)
    (hs : P s) (h : requestResources.loop env a req maxRetries fuel retries s = some r) :
    P r.state := by
  induction fuel generalizing retries s with
  | zero => cases h
  | succ fuel ih =>
    rw [requestLoop_succ] at h
    split at h
    · split at h
      · rw [← Option.some.inj h]
        exact hs
      · have hs1 : P (awaitResources env retries s req).1 := by
          rcases awaitResources_state env retries s req with e | e
          · rw [e]
            exact hs
          · rw [e]
            exact henv _ _ _ hs
        split at h
        · rename_i s1 heq
          rw [heq] at hs1
          exact ih _ _ hs1 h
        · rename_i s1 heq
          rw [heq] at hs1
          split at h
          · cases h
          · rw [← Option.some.inj h]
            exact halloc _ hs1
          · rw [rollback_allocate] at h
            exact ih _ _ (henv _ _ _ hs1) h
    · rw [← Option.some.inj h]
      exact hs

theorem requestResources_invariant (env : Env) (a : Nat) (req : List Int) (maxRetries : Int)
    (P : State → Prop) (henv : ∀ w k t, P t → P (env w k t))
    (halloc : ∀ t, P t → P (allocate t a req)) (s : State) (r : Result)
    (hs : P s) (h : requestResources env s a req maxRetries = some r) : P r.state := by
  unfold requestResources at h
  split at h
  · rw [← Option.some.inj h]
    exact hs
  · exact requestLoop_invariant env a req maxRetries P henv halloc _ _ s r hs h

theorem quiet_conserving (s : State) (j : Nat) : Conserving quiet s j :=
  fun _ _ _ h => h

/-- C1: whatever the other threads do during the waits of the call, when `requestResources`
returns `true` (granted), `isSafe` evaluated on the state the call leaves behind returns
`true`. -/
theorem granted_isSafe (env : Env) (s : State) (a : Nat) (req : List Int) (maxRetries : Int)
    (r : Result) (h : requestResources env s a req maxRetries = some r) (hret : r.ret = true) :
    isSafe r.state = some true := by
  unfold requestResources at h
  split at h
  · rw [← Option.some.inj h] at hret
    cases hret
  · exact (requestLoop_granted env a req maxRetries _ _ s r h).2 hret

/-- Witness of C1: Test 1 of `main`, process 1 requesting `[1, 0, 2]`, is granted and leaves a
safe state. -/
theorem granted_isSafe_witness :
    requestResources quiet exampleState 1 [1, 0, 2] 5 =
      some ⟨true, Exit.granted, exampleGranted⟩ ∧
    isSafe exampleGranted = some true :=
  ⟨by decide,
    granted_isSafe quiet exampleState 1 [1, 0, 2] 5 ⟨true, Exit.granted, exampleGranted⟩
      (by decide) rfl⟩

/-- C5: for an actor that is not finished and a retry limit of at least 1, when nobody else
acts during the call, `requestResources` returns, and it returns `true` (through the granted
exit) if and only if the request is within the need of the actor for every resource, within
`available` for every resource, and `isSafe` returns `true` on the state obtained by the
tentative allocation. -/
theorem grant_iff (s : State) (a : Nat) (req : List Int) (maxRetries : Int)
    (hact : s.finished.getD a false = false) (hmr : 1 ≤ maxRetries) :
    ∃ r, requestResources quiet s a req maxRetries = some r ∧
      (r.ret = true ↔ r.exit = Exit.granted) ∧
      (r.ret = true ↔
        ((∀ j, j < s.numResources → vget req j ≤ mget s.need a j) ∧
         (∀ j, j < s.numResources → vget req j ≤ vget s.available j) ∧
         isSafe (allocate s a req) = some true)) := by
  refine ⟨_, requestResources_quiet s a req maxRetries hact, ?_⟩
  rw [if_pos (by omega), ← exceedsNeed_eq_false_iff, ← resourcesAvailable_iff]
  by_cases hex : exceedsNeed s a req = true
  · rw [if_pos hex]
    simp [hex]
  · rw [if_neg hex]
    by_cases hgo : resourcesAvailable s req = true ∧ isSafe (allocate s a req) = some true
    · rw [if_pos hgo]
      simp [hex, hgo.1, hgo.2]
    · rw [if_neg hgo]
      simp only [Bool.false_eq_true, false_iff, reduceCtorEq, not_false_eq_true, true_and]
      intro h
      exact hgo h.2

/-- Witness of C5: Test 1 of `main`. -/
theorem grant_iff_witness :
    exampleState.finished.getD 1 false = false ∧
    ∃ r, requestResources quiet exampleState 1 [1, 0, 2] 5 = some r ∧
      (r.ret = true ↔ r.exit = Exit.granted) ∧
      (r.ret = true ↔
        ((∀ j, j < exampleState.numResources → vget [1, 0, 2] j ≤ mget exampleState.need 1 j) ∧
         (∀ j, j < exampleState.numResources →
            vget [1, 0, 2] j ≤ vget exampleState.available j) ∧
         isSafe (allocate exampleState 1 [1, 0, 2]) = some true)) :=
  ⟨by decide, grant_iff exampleState 1 [1, 0, 2] 5 (by decide) (by decide)⟩

/-- C7: when a call of `requestResources` during which nobody else acts returns `false`
(the actor is finished, the request exceeds the need, it never fits `available`, or every
tentative allocation was found unsafe), the state it leaves is the state it started in:
`available`, `allocation`, `need`, `maximum` and `finished` are all unchanged. -/
theorem denied_state_unchanged (s : State) (a : Nat) (req : List Int) (maxRetries : Int)
    (r : Result) (h : requestResources quiet s a req maxRetries = some r)
    (hret : r.ret = false) : r.state = s := by
  rcases requestResources_quiet_cases s a req maxRetries r h with ⟨-, hs⟩ | ⟨ht, -⟩
  · exact hs
  · rw [ht] at hret
    cases hret

/-- Witness of C7: Test 2 of `main`, process 4 requesting `[3, 3, 0]`, fits `available` but
is unsafe at each of the five attempts. -/
theorem denied_state_unchanged_witness :
    requestResources quiet exampleState 4 [3, 3, 0] 5 =
      some ⟨false, Exit.maxRetries, exampleState⟩ ∧
    (⟨false, Exit.maxRetries, exampleState⟩ : Result).state = exampleState :=
  ⟨by decide,
    denied_state_unchanged exampleState 4 [3, 3, 0] 5 ⟨false, Exit.maxRetries, exampleState⟩
      (by decide) rfl⟩

/-- Counterexample to C8 as stated: with a retry limit of 0 the request of process 0 for
`[8, 0, 0]`, above its need of 7, never reaches the need check; the call leaves through the
retries-exhausted exit. -/
theorem exceedsNeed_zero_retries :
    exampleState.finished.getD 0 false = false ∧
    (0 < exampleState.numResources ∧ vget [8, 0, 0] 0 > mget exampleState.need 0 0) ∧
    requestResources quiet exampleState 0 [8, 0, 0] 0 =
      some ⟨false, Exit.maxRetries, exampleState⟩ ∧
    Exit.maxRetries ≠ Exit.exceedsNeed := by
  decide

/-- C8 (amended): for an actor that is not finished and a request above its need for some
resource, whatever `available` is and whatever the other threads do, `requestResources`
returns `false` with the state unchanged; with a retry limit of at least 1 it leaves through
the exceeds-need exit of the first attempt, before any wait, and with a retry limit below 1
it makes no attempt and leaves through the retries-exhausted exit. -/
theorem exceedsNeed_denied (env : Env) (s : State) (a : Nat) (req : List Int)
    (maxRetries : Int) (hact : s.finished.getD a false = false)
    (hex : ∃ j, j < s.numResources ∧ vget req j > mget s.need a j) :
    requestResources env s a req maxRetries =
      some ⟨false, if 1 ≤ maxRetries then Exit.exceedsNeed else Exit.maxRetries, s⟩ := by
  unfold requestResources
  rw [hact, if_neg (by decide), requestLoop_succ]
  by_cases hmr : 1 ≤ maxRetries
  · rw [if_pos (by omega), if_pos ((exceedsNeed_iff s a req).2 hex), if_pos hmr]
  · rw [if_neg (by omega), if_neg hmr]

/-- Witness of C8 (amended): process 0 of Example 1 requesting `[8, 0, 0]` with the default
retry limit. -/
theorem exceedsNeed_denied_witness :
    exampleState.finished.getD 0 false = false ∧
    (∃ j, j < exampleState.numResources ∧ vget [8, 0, 0] j > mget exampleState.need 0 j) ∧
    requestResources quiet exampleState 0 [8, 0, 0] 5 =
      some ⟨false, Exit.exceedsNeed, exampleState⟩ :=
  ⟨by decide, ⟨0, by decide⟩,
    exceedsNeed_denied quiet exampleState 0 [8, 0, 0] 5 (by decide) ⟨0, by decide⟩⟩

/-- C9: for an actor whose `finished` flag is set, `requestResources` is rejected for every
request vector and every retry limit, whatever the other threads do, and leaves the state
unchanged; the same holds in every state reached later by further calls, so the actor is never
granted anything again. -/
theorem rejected_finished (env : Env) (s : State) (a : Nat)
    (hfin : s.finished.getD a false = true) (req : List Int) (maxRetries : Int) :
    requestResources env s a req maxRetries = some ⟨false, Exit.rejectedFinished, s⟩ ∧
    ∀ t, Reachable s t → ∀ req2 maxRetries2,
      requestResources env t a req2 maxRetries2 = some ⟨false, Exit.rejectedFinished, t⟩ := by
  have hrej : ∀ t : State, t.finished.getD a false = true → ∀ req2 maxRetries2,
      requestResources env t a req2 maxRetries2 = some ⟨false, Exit.rejectedFinished, t⟩ := by
    intro t ht req2 maxRetries2
    unfold requestResources
    rw [ht, if_pos rfl]
  exact ⟨hrej s hfin req maxRetries, fun t ht => hrej t (reachable_finished ht a hfin)⟩

/-- Witness of C9: process 0 of Example 1 after its release, asking for nothing. -/
theorem rejected_finished_witness :
    releaseResources exampleState 0 = exampleReleased ∧
    exampleReleased.finished.getD 0 false = true ∧
    requestResources quiet exampleReleased 0 [0, 0, 0] 5 =
      some ⟨false, Exit.rejectedFinished, exampleReleased⟩ :=
  ⟨by decide, by decide,
    (rejected_finished quiet exampleReleased 0 (by decide) [0, 0, 0] 5).1⟩

/-- A loop of checks runs through without throwing exactly when every check does. -/
theorem forM_ok_iff {ε α : Type} (l : List α) (f : α → Except ε Unit) :
    l.forM f = Except.ok () ↔ ∀ x, x ∈ l → f x = Except.ok () := by
  induction l with
  | nil => simp [List.forM, pure, Except.pure]
  | cons a l ih =>
    have hcons : (a :: l).forM f = (f a >>= fun _ => l.forM f) := rfl
    rw [hcons]
    cases h : f a with
    | error e => simp [h, bind, Except.bind]
    | ok u => simp [h, bind, Except.bind, ih]

theorem validateCell_ok_iff (s : State) (i j : Nat) :
    validateCell s i j = Except.ok () ↔
      mget s.allocation i j ≤ mget s.maximum i j ∧ 0 ≤ mget s.allocation i j ∧
        0 ≤ mget s.maximum i j := by
  unfold validateCell
  by_cases h1 : mget s.allocation i j > mget s.maximum i j
  · rw [if_pos h1]
    simp [throw, throwThe, MonadExceptOf.throw]
    omega
  · rw [if_neg h1]
    by_cases h2 : mget s.allocation i j < 0 ∨ mget s.maximum i j < 0
    · rw [if_pos h2]
      simp [throw, throwThe, MonadExceptOf.throw]
      omega
    · rw [if_neg h2]
      simp [pure, Except.pure]
      omega

/-- `validateInitialState` returns without throwing exactly when every cell has
`0 ≤ allocation ≤ maximum` and no column sum `available[j] + Σ_i allocation[i][j]`, as the
`int` additions compute it, is negative. -/
theorem validateInitialState_ok_iff (s : State) :
    validateInitialState s = Except.ok () ↔
      (∀ i, i < s.numProcesses → ∀ j, j < s.numResources →
        mget s.allocation i j ≤ mget s.maximum i j ∧ 0 ≤ mget s.allocation i j ∧
          0 ≤ mget s.maximum i j) ∧
      (∀ j, j < s.numResources → 0 ≤ columnSum s j) := by
  have h1 := forM_ok_iff (List.range s.numProcesses)
    (fun i => (List.range s.numResources).forM fun j => validateCell s i j)
  have h2 := forM_ok_iff (List.range s.numResources)
    (fun j => if columnSum s j < 0 then (throw (InvalidArgument.badSupply j) :
      Except InvalidArgument Unit) else pure ())
  have hval : validateInitialState s =
      ((List.range s.numProcesses).forM (fun i =>
        (List.range s.numResources).forM fun j => validateCell s i j) >>= fun _ =>
      (List.range s.numResources).forM fun j =>
        if columnSum s j < 0 then (throw (InvalidArgument.badSupply j) :
          Except InvalidArgument Unit) else pure ()) := rfl
  rw [hval]
  constructor
  · intro h
    cases hA : (List.range s.numProcesses).forM (fun i =>
        (List.range s.numResources).forM fun j => validateCell s i j) with
    | error e =>
      rw [hA] at h
      cases h
    | ok u =>
      rw [hA] at h
      have hB : ((List.range s.numResources).forM fun j =>
        if columnSum s j < 0 then (throw (InvalidArgument.badSupply j) :
          Except InvalidArgument Unit) else pure ()) = Except.ok () := h
      refine ⟨fun i hi j hj => ?_, fun j hj => ?_⟩
      · have hrow := h1.1 hA i (List.mem_range.2 hi)
        exact (validateCell_ok_iff s i j).1
          ((forM_ok_iff _ _).1 hrow j (List.mem_range.2 hj))
      · have hj2 := h2.1 hB j (List.mem_range.2 hj)
        by_contra hneg
        rw [if_pos (by omega)] at hj2
        cases hj2
  · rintro ⟨hcells, hsup⟩
    have hA : (List.range s.numProcesses).forM (fun i =>
        (List.range s.numResources).forM fun j => validateCell s i j) = Except.ok () := by
      apply h1.2
      intro i hi
      apply (forM_ok_iff _ _).2
      intro j hj
      exact (validateCell_ok_iff s i j).2 (hcells i (List.mem_range.1 hi) j (List.mem_range.1 hj))
    have hB : ((List.range s.numResources).forM fun j =>
        if columnSum s j < 0 then (throw (InvalidArgument.badSupply j) :
          Except InvalidArgument Unit) else pure ()) = Except.ok () := by
      apply h2.2
      intro j hj
      rw [if_neg (by have := hsup j (List.mem_range.1 hj); omega)]
      rfl
    rw [hA]
    exact hB

/-- The state the constructor builds when the validation passes. -/
theorem construct_eq (processes resources : Nat) (avail : List Int) (max alloc : List (List Int)) :
    construct processes resources avail max alloc =
      match validateInitialState
        { numProcesses := processes
          numResources := resources
          available := avail
          maximum := max
          allocation := alloc
          need := []
          finished := List.replicate processes false } with
      | Except.error e => Except.error e
      | Except.ok _ =>
        Except.ok
          { numProcesses := processes
            numResources := resources
            available := avail
            maximum := max
            allocation := alloc
            need := (List.range processes).map fun i =>
              (List.range resources).map fun j => mget max i j - mget alloc i j
            finished := List.replicate processes false } := rfl

/-- A successful construction has passed every check of `validateInitialState`. -/
theorem construct_valid {processes resources : Nat} {avail : List Int}
    {max alloc : List (List Int)} {s : State}
    (h : construct processes resources avail max alloc = Except.ok s) :
    (∀ i, i < processes → ∀ j, j < resources →
      mget alloc i j ≤ mget max i j ∧ 0 ≤ mget alloc i j ∧ 0 ≤ mget max i j) ∧
    (∀ j, j < resources →
      0 ≤ (List.range processes).foldl (fun sum i => wrapInt (sum + mget alloc i j))
        (vget avail j)) := by
  rw [construct_eq] at h
  split at h
  · cases h
  · rename_i u hv
    cases u
    have hv2 := (validateInitialState_ok_iff _).1 hv
    exact ⟨hv2.1, fun j hj => hv2.2 j hj⟩

/-- The entries of a matrix filled by `for i < n: for j < k: m[i][j] = f i j`. -/
theorem mget_map_map (f : Nat → Nat → Int) (n k i j : Nat) (hi : i < n) (hj : j < k) :
    mget ((List.range n).map fun i => (List.range k).map fun j => f i j) i j = f i j := by
  unfold mget vget
  simp [List.getD_eq_getElem?_getD, hi, hj]

theorem construct_wf {processes resources : Nat} {avail : List Int}
    {max alloc : List (List Int)} {s : State}
    (hdims : Dims processes resources avail max alloc)
    (h : construct processes resources avail max alloc = Except.ok s) : WF s := by
  rw [construct_ok h]
  obtain ⟨d1, d2, d3, d4, d5⟩ := hdims
  refine ⟨d1, by simp, d2, d3, by simp, d4, d5, ?_⟩
  intro r hr
  obtain ⟨i, -, rfl⟩ := List.mem_map.1 hr
  simp

theorem construct_consistent {processes resources : Nat} {avail : List Int}
    {max alloc : List (List Int)} {s : State}
    (h : construct processes resources avail max alloc = Except.ok s) : Consistent s := by
  obtain ⟨hcells, -⟩ := construct_valid h
  rw [construct_ok h]
  intro i hi j hj
  obtain ⟨c1, c2, c3⟩ := hcells i hi j hj
  refine ⟨c3, fun _ => ?_, fun hfin => ?_⟩
  · show mget alloc i j + mget ((List.range processes).map fun i =>
      (List.range resources).map fun j => mget max i j - mget alloc i j) i j = mget max i j ∧
      0 ≤ mget ((List.range processes).map fun i =>
      (List.range resources).map fun j => mget max i j - mget alloc i j) i j
    rw [mget_map_map (fun i j => mget max i j - mget alloc i j) _ _ i j hi hj]
    constructor
    · ring
    · omega
  · have hf : (List.replicate processes false).getD i false = true := hfin
    rw [getD_replicate_false] at hf
    cases hf

/-! ## What the calls keep -/

/-- The tables after the release of an active actor, entry by entry. -/
theorem releaseResources_entries {s : State} (hwf : WF s) {a : Nat} (ha : a < s.numProcesses)
    (hfin : s.finished.getD a false = false) (i j : Nat) :
    mget (releaseResources s a).allocation i j = (if i = a then 0 else mget s.allocation i j) ∧
    mget (releaseResources s a).need i j = (if i = a then 0 else mget s.need i j) ∧
    (releaseResources s a).finished.getD i false =
      (if i = a then true else s.finished.getD i false) := by
  obtain ⟨-, -, -, h4, h5, h6, -⟩ := releaseResources_active hwf ha hfin
  obtain ⟨-, w2, -, w4, w5, -⟩ := hwf
  rw [h4, h5, h6, mget_set_row, mget_set_row, getD_set, vget_replicate_zero]
  by_cases hia : i = a
  · have c1 : a = i ∧ i < s.allocation.length := ⟨hia.symm, by rw [w4, hia]; exact ha⟩
    have c2 : a = i ∧ i < s.need.length := ⟨hia.symm, by rw [w5, hia]; exact ha⟩
    have c3 : a = i ∧ i < s.finished.length := ⟨hia.symm, by rw [w2, hia]; exact ha⟩
    rw [if_pos c1, if_pos c2, if_pos c3, if_pos hia, if_pos hia, if_pos hia]
    exact ⟨rfl, rfl, rfl⟩
  · have c1 : ¬(a = i ∧ i < s.allocation.length) := fun h => hia h.1.symm
    have c2 : ¬(a = i ∧ i < s.need.length) := fun h => hia h.1.symm
    have c3 : ¬(a = i ∧ i < s.finished.length) := fun h => hia h.1.symm
    rw [if_neg c1, if_neg c2, if_neg c3, if_neg hia, if_neg hia, if_neg hia]
    exact ⟨rfl, rfl, rfl⟩

theorem releaseResources_finished (s : State) (a : Nat)
    (hfin : s.finished.getD a false = true) : releaseResources s a = s := by
  unfold releaseResources
  rw [hfin, if_pos rfl]

theorem consistent_allocate {s : State} (hwf : WF s) {a : Nat} (ha : a < s.numProcesses)
    (req : List Int) (hfin : s.finished.getD a false = false)
    (hneed : exceedsNeed s a req = false) (h : Consistent s) :
    Consistent (allocate s a req) := by
  intro i hi j hj
  obtain ⟨f1, f2, f3, f4⟩ := allocate_frame s a req
  rw [f1] at hi
  rw [f2] at hj
  obtain ⟨-, e2, e3⟩ := allocate_entries hwf ha req j hj
  obtain ⟨c1, c2, c3⟩ := h i hi j hj
  rw [f3, f4, e2 i, e3 i]
  by_cases hia : i = a
  · subst hia
    rw [if_pos rfl, if_pos rfl]
    have hle := (exceedsNeed_eq_false_iff s i req).1 hneed j hj
    obtain ⟨c4, c5⟩ := c2 hfin
    refine ⟨c1, fun _ => ⟨by omega, by omega⟩, fun ht => ?_⟩
    rw [hfin] at ht
    cases ht
  · rw [if_neg hia, if_neg hia]
    exact ⟨c1, c2, c3⟩

theorem consistent_releaseResources {s : State} (hwf : WF s) {a : Nat}
    (ha : a < s.numProcesses) (h : Consistent s) : Consistent (releaseResources s a) := by
  by_cases hfin : s.finished.getD a false = false
  · intro i hi j hj
    obtain ⟨h1, h2, h3, -⟩ := releaseResources_active hwf ha hfin
    rw [h1] at hi
    rw [h2] at hj
    obtain ⟨e1, e2, e3⟩ := releaseResources_entries hwf ha hfin i j
    obtain ⟨c1, c2, c3⟩ := h i hi j hj
    rw [h3, e1, e2, e3]
    by_cases hia : i = a
    · rw [if_pos hia, if_pos hia, if_pos hia]
      refine ⟨c1, fun hf => ?_, fun _ => ⟨rfl, rfl⟩⟩
      cases hf
    · rw [if_neg hia, if_neg hia, if_neg hia]
      exact ⟨c1, c2, c3⟩
  · rw [releaseResources_finished s a (eq_true_of_ne_false hfin)]
    exact h

theorem reachable_consistent {s0 s : State} (hwf : WF s0) (hc : Consistent s0)
    (h : Reachable s0 s) : Consistent s := by
  induction h with
  | init => exact hc
  | @request t a req maxRetries r hreach ha hr ih =>
    have hwt := reachable_wf hwf hreach
    rcases requestResources_quiet_cases _ a req maxRetries r hr with
      ⟨-, hs⟩ | ⟨-, -, hs, hfin, -, hneed, -, -⟩
    · rw [hs]
      exact ih
    · rw [hs]
      exact consistent_allocate hwt ha req hfin hneed ih
  | @release t a hreach ha ih =>
    exact consistent_releaseResources (reachable_wf hwf hreach) ha ih

theorem reachable_trans {s0 s t : State} (h1 : Reachable s0 s) (h2 : Reachable s t) :
    Reachable s0 t := by
  induction h2 with
  | init => exact h1
  | request a req maxRetries r _ ha hr ih => exact Reachable.request a req maxRetries r ih ha hr
  | release a _ ha ih => exact Reachable.release a ih ha

theorem reachableNonneg_reachable {s0 s : State} (h : ReachableNonneg s0 s) :
    Reachable s0 s := by
  induction h with
  | init => exact Reachable.init
  | request a req maxRetries r _ ha _ hr ih => exact Reachable.request a req maxRetries r ih ha hr
  | release a _ ha ih => exact Reachable.release a ih ha

/-- Requests without negative entries and releases keep `allocation` free of negative
entries. -/
theorem reachableNonneg_allocation {s0 s : State} (hwf : WF s0)
    (h0 : ∀ i, i < s0.numProcesses → ∀ j, j < s0.numResources → 0 ≤ mget s0.allocation i j)
    (h : ReachableNonneg s0 s) :
    ∀ i, i < s.numProcesses → ∀ j, j < s.numResources → 0 ≤ mget s.allocation i j := by
  induction h with
  | init => exact h0
  | @request t a req maxRetries r hreach ha hreq hr ih =>
    have hwt := reachable_wf hwf (reachableNonneg_reachable hreach)
    rcases requestResources_quiet_cases _ a req maxRetries r hr with ⟨-, hs⟩ | ⟨-, -, hs, -⟩
    · rw [hs]
      exact ih
    · rw [hs]
      intro i hi j hj
      obtain ⟨f1, f2, -, -⟩ := allocate_frame t a req
      rw [f1] at hi
      rw [f2] at hj
      obtain ⟨-, e2, -⟩ := allocate_entries hwt ha req j hj
      rw [e2 i]
      have h1 := ih i hi j hj
      have h2 := ih a ha j hj
      have h3 := hreq j hj
      split
      · omega
      · exact h1
  | @release t a hreach ha ih =>
    have hwt := reachable_wf hwf (reachableNonneg_reachable hreach)
    by_cases hfin : t.finished.getD a false = false
    · intro i hi j hj
      obtain ⟨h1, h2, -⟩ := releaseResources_active hwt ha hfin
      rw [h1] at hi
      rw [h2] at hj
      rw [(releaseResources_entries hwt ha hfin i j).1]
      split
      · exact le_refl 0
      · exact ih i hi j hj
    · rw [releaseResources_finished t a (eq_true_of_ne_false hfin)]
      exact ih

theorem awaitResources_available (env : Env) (k : Nat) (s : State) (req : List Int)
    (h : resourcesAvailable s req = true) : awaitResources env k s req = (s, true) := by
  unfold awaitResources
  rw [h, if_neg (by decide)]

/-- Whatever the other threads do, a request that passes the three checks of its first
attempt is granted there, before any wait. -/
theorem requestResources_first_attempt (env : Env) (s : State) (a : Nat) (req : List Int)
    (maxRetries : Int) (hact : s.finished.getD a false = false) (hmr : 1 ≤ maxRetries)
    (hneed : exceedsNeed s a req = false) (hav : resourcesAvailable s req = true)
    (hsafe : isSafe (allocate s a req) = some true) :
    requestResources env s a req maxRetries =
      some ⟨true, Exit.granted, allocate s a req⟩ := by
  unfold requestResources
  rw [hact, if_neg (by decide), requestLoop_succ, if_pos (by omega), hneed,
    if_neg (by decide), awaitResources_available env 0 s req hav]
  simp only
  rw [hsafe]

/-! ## The claims on release, the invariants, construction and the scenarios -/

/-- C11: in a well-formed state, for an existing actor `a`, calling `releaseResources(a)`
twice leaves exactly the state that calling it once leaves; and when `a` is already finished
the call leaves the whole state unchanged. -/
theorem release_idempotent (s : State) (hwf : WF s) (a : Nat) (ha : a < s.numProcesses) :
    releaseResources (releaseResources s a) a = releaseResources s a ∧
    (s.finished.getD a false = true → releaseResources s a = s) := by
  refine ⟨?_, releaseResources_finished s a⟩
  by_cases hfin : s.finished.getD a false = false
  · apply releaseResources_finished
    rw [(releaseResources_entries hwf ha hfin a 0).2.2, if_pos rfl]
  · rw [releaseResources_finished s a (eq_true_of_ne_false hfin),
      releaseResources_finished s a (eq_true_of_ne_false hfin)]

/-- Witness of C11: process 0 of Example 1 released twice. -/
theorem release_idempotent_witness :
    WF exampleState ∧ releaseResources exampleState 0 = exampleReleased ∧
    releaseResources exampleReleased 0 = exampleReleased ∧
    (releaseResources (releaseResources exampleState 0) 0 = releaseResources exampleState 0 ∧
    (exampleState.finished.getD 0 false = true → releaseResources exampleState 0 = exampleState)) :=
  ⟨by decide, by decide, by decide, release_idempotent exampleState (by decide) 0 (by decide)⟩

/-- C13: in every state reached from a successfully constructed allocator by releases and by
requests whose vectors have no negative entry, `allocation[i][j]`, `need[i][j]` and
`maximum[i][j]` are all non-negative, for every actor `i` and resource `j`. -/
theorem tables_nonneg (processes resources : Nat) (avail : List Int)
    (max alloc : List (List Int)) (s0 : State)
    (hdims : Dims processes resources avail max alloc)
    (hc : construct processes resources avail max alloc = Except.ok s0)
    (s : State) (hs : ReachableNonneg s0 s) :
    ∀ i, i < s.numProcesses → ∀ j, j < s.numResources →
      0 ≤ mget s.allocation i j ∧ 0 ≤ mget s.need i j ∧ 0 ≤ mget s.maximum i j := by
  have hwf := construct_wf hdims hc
  have hcons := reachable_consistent hwf (construct_consistent hc) (reachableNonneg_reachable hs)
  have halloc0 : ∀ i, i < s0.numProcesses → ∀ j, j < s0.numResources →
      0 ≤ mget s0.allocation i j := by
    rw [construct_ok hc]
    intro i hi j hj
    exact ((construct_valid hc).1 i hi j hj).2.1
  have halloc := reachableNonneg_allocation hwf halloc0 hs
  intro i hi j hj
  obtain ⟨c1, c2, c3⟩ := hcons i hi j hj
  refine ⟨halloc i hi j hj, ?_, c1⟩
  cases hfin : s.finished.getD i false
  · exact (c2 hfin).2
  · rw [(c3 hfin).2]

/-- Witness of C13: the allocator of Example 1 after Test 1 of `main`. -/
theorem tables_nonneg_witness :
    Dims 5 3 [3, 3, 2] exampleState.maximum exampleState.allocation ∧
    ReachableNonneg exampleState exampleGranted ∧
    (∀ i, i < exampleGranted.numProcesses → ∀ j, j < exampleGranted.numResources →
      0 ≤ mget exampleGranted.allocation i j ∧ 0 ≤ mget exampleGranted.need i j ∧
        0 ≤ mget exampleGranted.maximum i j) :=
  have hreach : ReachableNonneg exampleState exampleGranted :=
    ReachableNonneg.request 1 [1, 0, 2] 5 ⟨true, Exit.granted, exampleGranted⟩
      ReachableNonneg.init (by decide) (by decide) (by decide)
  ⟨by decide, hreach,
    tables_nonneg 5 3 [3, 3, 2] exampleState.maximum exampleState.allocation exampleState
      (by decide) rfl exampleGranted hreach⟩

/-- C14: when `finished[i]` is set in a state `s` reached from a successfully constructed
allocator, then in every state `t` reached from `s` by calls of `requestResources` and
`releaseResources` (for any actors) `finished[i]` is still set and `allocation[i][j]` and
`need[i][j]` are zero for every resource `j`. -/
theorem finished_permanent (processes resources : Nat) (avail : List Int)
    (max alloc : List (List Int)) (s0 : State)
    (hdims : Dims processes resources avail max alloc)
    (hc : construct processes resources avail max alloc = Except.ok s0)
    (s : State) (hs : Reachable s0 s) (i : Nat) (hfin : s.finished.getD i false = true)
    (t : State) (ht : Reachable s t) :
    t.finished.getD i false = true ∧
    ∀ j, j < t.numResources → mget t.allocation i j = 0 ∧ mget t.need i j = 0 := by
  have hwf := construct_wf hdims hc
  have hst := reachable_trans hs ht
  have hcons := reachable_consistent hwf (construct_consistent hc) hst
  have hfint := reachable_finished ht i hfin
  have hwt := reachable_wf hwf hst
  have hi : i < t.numProcesses := by
    by_contra hge
    rw [List.getD_eq_default _ _ (by rw [hwt.2.1]; omega)] at hfint
    cases hfint
  exact ⟨hfint, fun j hj => (hcons i hi j hj).2.2 hfint⟩

/-- Witness of C14: process 0 of Example 1, released, then process 1 granted `[1, 0, 0]`. -/
theorem finished_permanent_witness :
    Reachable exampleState exampleReleased ∧
    exampleReleased.finished.getD 0 false = true ∧
    (∃ t, requestResources quiet exampleReleased 1 [1, 0, 0] 5 = some ⟨true, Exit.granted, t⟩ ∧
      t.finished.getD 0 false = true ∧
      ∀ j, j < t.numResources → mget t.allocation 0 j = 0 ∧ mget t.need 0 j = 0) :=
  have hrel : Reachable exampleState exampleReleased :=
    (by decide : releaseResources exampleState 0 = exampleReleased) ▸
      Reachable.release 0 Reachable.init (by decide)
  ⟨hrel, by decide, allocate exampleReleased 1 [1, 0, 0], by decide,
    finished_permanent 5 3 [3, 3, 2] exampleState.maximum exampleState.allocation exampleState
      (by decide) rfl exampleReleased hrel 0 (by decide) (allocate exampleReleased 1 [1, 0, 0])
      (Reachable.request 1 [1, 0, 0] 5
        ⟨true, Exit.granted, allocate exampleReleased 1 [1, 0, 0]⟩ Reachable.init
        (by decide) (by decide))⟩

/-- C16: the constructor accepts the arguments `Available = [-1]`, `Maximum = [[1]]`,
`Allocation = [[1]]` of matching dimensions although `Available[0]` is negative:
`validateInitialState` tests the sign of the entries of `allocation` and `maximum` only, and
the column sum `-1 + 1 = 0` passes the last check. -/
theorem construct_negativeAvailable :
    Dims 1 1 [-1] [[1]] [[1]] ∧ vget [-1] 0 < 0 ∧
    construct 1 1 [-1] [[1]] [[1]] = Except.ok negativeAvailable ∧
    vget negativeAvailable.available 0 = -1 :=
  ⟨by decide, by decide, rfl, by decide⟩

/-- C17: whenever construction succeeds, the state has the dimensions, `available`,
`maximum` and `allocation` of the arguments, `need` is a `processes × resources` matrix with
`need[i][j] = maximum[i][j] - allocation[i][j]`, and `finished` has `processes` entries, all
`false`. -/
theorem construct_result (processes resources : Nat) (avail : List Int)
    (max alloc : List (List Int)) (s : State)
    (hc : construct processes resources avail max alloc = Except.ok s) :
    s.numProcesses = processes ∧ s.numResources = resources ∧
    s.available = avail ∧ s.maximum = max ∧ s.allocation = alloc ∧
    s.need.length = processes ∧ (∀ row, row ∈ s.need → row.length = resources) ∧
    (∀ i, i < processes → ∀ j, j < resources →
      mget s.need i j = mget max i j - mget alloc i j) ∧
    s.finished.length = processes ∧
    (∀ i, i < processes → s.finished.getD i false = false) := by
  rw [construct_ok hc]
  refine ⟨rfl, rfl, rfl, rfl, rfl, by simp, ?_, ?_, by simp, ?_⟩
  · intro row hrow
    obtain ⟨i, -, rfl⟩ := List.mem_map.1 hrow
    simp
  · intro i hi j hj
    exact mget_map_map (fun i j => mget max i j - mget alloc i j) _ _ i j hi hj
  · intro i _
    exact getD_replicate_false processes i

/-- Witness of C17: the construction of Example 1 in `main`. -/
theorem construct_result_witness :
    construct 5 3 [3, 3, 2] [[7, 5, 3], [3, 2, 2], [9, 0, 2], [2, 2, 2], [4, 3, 3]]
      [[0, 1, 0], [2, 0, 0], [3, 0, 2], [2, 1, 1], [0, 0, 2]] = Except.ok exampleState ∧
    exampleState.need = [[7, 4, 3], [1, 2, 2], [6, 0, 0], [0, 1, 1], [4, 3, 1]] ∧
    exampleState.finished = [false, false, false, false, false] ∧
    (∀ i, i < 5 → ∀ j, j < 3 →
      mget exampleState.need i j =
        mget [[7, 5, 3], [3, 2, 2], [9, 0, 2], [2, 2, 2], [4, 3, 3]] i j -
          mget [[0, 1, 0], [2, 0, 0], [3, 0, 2], [2, 1, 1], [0, 0, 2]] i j) :=
  ⟨rfl, rfl, rfl,
    (construct_result 5 3 [3, 3, 2] [[7, 5, 3], [3, 2, 2], [9, 0, 2], [2, 2, 2], [4, 3, 3]]
      [[0, 1, 0], [2, 0, 0], [3, 0, 2], [2, 1, 1], [0, 0, 2]] exampleState rfl).2.2.2.2.2.2.2.1⟩

/-- C18: the allocator built with `N = 5`, `R = 3`, `Available = [3, 3, 2]` and the matrices of
Example 1 is the state `exampleState`; on it `isSafe` returns `true` and `findSafeSequence`
returns `true` with the sequence `[1, 3, 4, 0, 2]`. -/
theorem scenarioA :
    construct 5 3 [3, 3, 2] [[7, 5, 3], [3, 2, 2], [9, 0, 2], [2, 2, 2], [4, 3, 3]]
      [[0, 1, 0], [2, 0, 0], [3, 0, 2], [2, 1, 1], [0, 0, 2]] = Except.ok exampleState ∧
    isSafe exampleState = some true ∧
    findSafeSequence exampleState = some (true, [1, 3, 4, 0, 2]) :=
  ⟨rfl, by decide, by decide⟩

/-- C19: on the allocator of Example 1, `requestResources(1, [1, 0, 2])` with the default
retry limit 5 returns `true` at its first attempt, whatever the other threads do, leaving
`available = [2, 3, 0]`, `allocation[1] = [3, 0, 2]`, `need[1] = [0, 2, 0]`, a state on which
`isSafe` returns `true`. -/
theorem scenarioB (env : Env) :
    ∃ t, requestResources env exampleState 1 [1, 0, 2] 5 = some ⟨true, Exit.granted, t⟩ ∧
      t.available = [2, 3, 0] ∧ t.allocation.getD 1 [] = [3, 0, 2] ∧
      t.need.getD 1 [] = [0, 2, 0] ∧ isSafe t = some true ∧ t = exampleGranted :=
  ⟨allocate exampleState 1 [1, 0, 2],
    requestResources_first_attempt env exampleState 1 [1, 0, 2] 5 (by decide) (by decide)
      (by decide) (by decide) (by decide),
    by decide, by decide, by decide, by decide, by decide⟩

/-- C20: on the freshly constructed allocator of Example 1, with nobody else acting,
`requestResources(4, [3, 3, 0])` with the default retry limit 5 returns `false` (the request
fits the need `[4, 3, 1]` and `available`, but the tentative state `available = [0, 0, 2]` is
unsafe at each of the five attempts) and leaves the state exactly as it was. -/
theorem scenarioC :
    construct 5 3 [3, 3, 2] [[7, 5, 3], [3, 2, 2], [9, 0, 2], [2, 2, 2], [4, 3, 3]]
      [[0, 1, 0], [2, 0, 0], [3, 0, 2], [2, 1, 1], [0, 0, 2]] = Except.ok exampleState ∧
    exceedsNeed exampleState 4 [3, 3, 0] = false ∧
    resourcesAvailable exampleState [3, 3, 0] = true ∧
    isSafe (allocate exampleState 4 [3, 3, 0]) = some false ∧
    requestResources quiet exampleState 4 [3, 3, 0] 5 =
      some ⟨false, Exit.maxRetries, exampleState⟩ :=
  ⟨rfl, by decide, by decide, by decide, by decide⟩

/-! ## More on the safety algorithm -/

/-- Whatever `findSafeSequence` returns, the sequence lists active actors only, each once, in
a safe order, and the boolean tells whether it lists all of them. -/
theorem findSafeSequence_loop_result (s : State) (fuel : Nat) (sim : Sim) (hinv : SimInv s sim)
    (b : Bool) (seq : List Nat) (h : findSafeSequence.loop s fuel sim = some (b, seq)) :
    (∀ i, i ∈ seq → Active s i) ∧ seq.Nodup ∧ SafeSequence s seq ∧
    (b = true ↔ ∀ i, Active s i → i ∈ seq) := by
  induction fuel generalizing sim with
  | zero => cases h
  | succ fuel ih =>
    unfold findSafeSequence.loop at h
    simp only at h
    have hinv1 : SimInv s ((List.range s.numProcesses).foldl (findSafeSequence.visit s)
        { sim with found := false }) :=
      simInv_scan _ (fun i hi => List.mem_range.1 hi) (simInv_resetFound hinv)
    split at h
    · split at h
      · split at h
        · rename_i hall
          obtain ⟨hb, hseq⟩ := Prod.mk.inj (Option.some.inj h)
          rw [← hb, ← hseq]
          refine ⟨hinv1.active, hinv1.nodup, hinv1.safe, ?_⟩
          refine ⟨fun _ i hact => ?_, fun _ => rfl⟩
          rcases (allFinished_iff s _).1 hall i hact.1 with hm | hf
          · exact (hinv1.mem_iff i).2 hm
          · rw [hact.2] at hf
            cases hf
        · rename_i hall
          obtain ⟨hb, hseq⟩ := Prod.mk.inj (Option.some.inj h)
          rw [← hb, ← hseq]
          refine ⟨hinv1.active, hinv1.nodup, hinv1.safe, ?_⟩
          refine ⟨fun hf => Bool.noConfusion hf, fun hmem => ?_⟩
          exfalso
          apply hall
          rw [allFinished_iff]
          intro i hi
          by_cases hf : s.finished.getD i false = true
          · exact Or.inr hf
          · exact Or.inl ((hinv1.mem_iff i).1 (hmem i ⟨hi, eq_false_of_ne_true hf⟩))
      · exact ih _ hinv1 h
    · rename_i hge
      obtain ⟨hb, hseq⟩ := Prod.mk.inj (Option.some.inj h)
      rw [← hb, ← hseq]
      refine ⟨hinv.active, hinv.nodup, hinv.safe, fun _ i hact => ?_, fun _ => rfl⟩
      refine mem_of_nodup_of_length hinv.nodup (fun x hx => (hinv.active x hx).1) ?_ i hact.1
      rw [← hinv.count_eq]
      exact Nat.le_of_not_lt hge

/-- A scan over finished actors changes nothing. -/
theorem scan_all_finished (s : State) (l : List Nat)
    (hfin : ∀ i, i ∈ l → s.finished.getD i false = true) (sim : Sim) :
    l.foldl (findSafeSequence.visit s) sim = sim := by
  induction l generalizing sim with
  | nil => rfl
  | cons i l ih =>
    simp only [List.foldl_cons]
    rcases visit_cases s sim i with ⟨heq, -⟩ | ⟨-, h2, -, -⟩
    · rw [heq]
      exact ih (fun i2 hi2 => hfin i2 (List.mem_cons_of_mem _ hi2)) sim
    · rw [hfin i (List.mem_cons_self _ _)] at h2
      cases h2

/-- When every actor is finished `findSafeSequence` returns `true` with the empty sequence. -/
theorem findSafeSequence_all_finished (s : State)
    (hfin : ∀ i, i < s.numProcesses → s.finished.getD i false = true) :
    findSafeSequence s = some (true, []) := by
  unfold findSafeSequence findSafeSequence.loop
  simp only
  have hscan := scan_all_finished s (List.range s.numProcesses)
    (fun i hi => hfin i (List.mem_range.1 hi)) { Sim.init s with found := false }
  rw [hscan]
  have hall : allFinished s (Sim.init s).finish = true := by
    rw [allFinished_iff]
    exact fun i hi => Or.inr (hfin i hi)
  split
  · rfl
  · rfl

theorem requestResources_ret_iff (env : Env) (s : State) (a : Nat) (req : List Int)
    (maxRetries : Int) (r : Result) (h : requestResources env s a req maxRetries = some r) :
    r.ret = true ↔ r.exit = Exit.granted := by
  unfold requestResources at h
  split at h
  · rw [← Option.some.inj h]
    simp
  · exact (requestLoop_granted env a req maxRetries _ _ s r h).1

theorem sameFrame_allocate {s t : State} {a : Nat} (req : List Int) (h : SameFrame s a t) :
    SameFrame s a (allocate t a req) := by
  obtain ⟨h1, h2, h3, h4, h5, h6, h7⟩ := h
  rw [allocate_eq]
  refine ⟨h1, h2, h3, h4, ?_, ?_, fun i hi => ?_⟩
  · show (t.allocation.set a _).length = _
    rw [List.length_set, h5]
  · show (t.need.set a _).length = _
    rw [List.length_set, h6]
  · show (t.allocation.set a _).getD i [] = _ ∧ (t.need.set a _).getD i [] = _
    rw [getD_set, getD_set, if_neg (fun h => hi h.1.symm), if_neg (fun h => hi h.1.symm)]
    exact h7 i hi

/-- Counterexample to C21 as stated: three calls that end in three different outcomes (the
request exceeds the need, the retries are used up, the actor is finished) all return the
same value `false`. -/
theorem outcomes_share_return_value :
    requestResources quiet exampleState 0 [8, 0, 0] 5 =
      some ⟨false, Exit.exceedsNeed, exampleState⟩ ∧
    requestResources quiet exampleState 4 [3, 3, 0] 5 =
      some ⟨false, Exit.maxRetries, exampleState⟩ ∧
    requestResources quiet exampleReleased 0 [0, 0, 0] 5 =
      some ⟨false, Exit.rejectedFinished, exampleReleased⟩ ∧
    Exit.exceedsNeed ≠ Exit.maxRetries ∧ Exit.maxRetries ≠ Exit.rejectedFinished ∧
    Exit.exceedsNeed ≠ Exit.rejectedFinished := by
  decide

/-- C21 (amended): the value returned by `requestResources` is a `bool` that tells a grant
from a denial and nothing more: whatever the other threads do, it is `true` exactly when the
call leaves through the granted exit, and `false` for each of the three other exits. -/
theorem return_value_reports_grant (env : Env) (s : State) (a : Nat) (req : List Int)
    (maxRetries : Int) (r : Result) (h : requestResources env s a req maxRetries = some r) :
    (r.ret = true ↔ r.exit = Exit.granted) ∧
    (r.ret = false ↔ (r.exit = Exit.exceedsNeed ∨ r.exit = Exit.maxRetries ∨
      r.exit = Exit.rejectedFinished)) := by
  have h1 := requestResources_ret_iff env s a req maxRetries r h
  refine ⟨h1, ?_⟩
  cases hret : r.ret
  · have hne : r.exit ≠ Exit.granted := fun he => by
      rw [hret] at h1
      exact Bool.noConfusion (h1.2 he)
    cases hexit : r.exit
    · simp
    · simp
    · exact absurd hexit hne
    · simp
  · have he := h1.1 hret
    rw [he]
    simp

/-- Witness of C21 (amended): Test 1 of `main`. -/
theorem return_value_reports_grant_witness :
    requestResources quiet exampleState 1 [1, 0, 2] 5 =
      some ⟨true, Exit.granted, exampleGranted⟩ ∧
    ((true = true ↔ Exit.granted = Exit.granted) ∧
    (true = false ↔ (Exit.granted = Exit.exceedsNeed ∨ Exit.granted = Exit.maxRetries ∨
      Exit.granted = Exit.rejectedFinished))) :=
  ⟨by decide,
    return_value_reports_grant quiet exampleState 1 [1, 0, 2] 5
      ⟨true, Exit.granted, exampleGranted⟩ (by decide)⟩

/-- C22: on the allocator of Example 1, `printState` reads `available`, `finished`,
`maximum`, `allocation` and `need` while holding `printMutex` only, and `requestResources`
tests `finished[processId]` (line 183) before it locks anything; the accesses of
`releaseResources` are all made under `bankMutex`. -/
theorem accesses_outside_bankMutex :
    unprotected false (printState.ops exampleState) =
      [Var.available, Var.finished, Var.finished, Var.maximum, Var.finished, Var.allocation,
        Var.finished, Var.need] ∧
    unprotected false (requestResources.ops exampleState 1 [1, 0, 2] 5) = [Var.finished] ∧
    unprotected false (requestResources.ops exampleState 4 [3, 3, 0] 5) = [Var.finished] ∧
    unprotected false (releaseResources.ops exampleState 0) = [] := by
  decide

/-- C23: on the allocator of Example 1, thread 0 calls `requestResources(0, [7, 4, 3], 1)`
and thread 1 calls `releaseResources(1)`. After nine steps of thread 0 and two of thread 1,
thread 0 is suspended in the availability wait of line 233 still owning `printMutex`,
thread 1 owns `bankMutex` and is about to lock `printMutex` (line 309), and neither can
ever take a step: the return from the wait needs `bankMutex`. Thread 1 has changed no table
by then, so the steps of thread 0 up to the wait are those of a call during which nobody else
acts. -/
theorem waiting_request_deadlocks_release :
    ∃ c, run ⟨none, none,
        [requestResources.ops exampleState 0 [7, 4, 3] 1, releaseResources.ops exampleState 1]⟩
        [0, 0, 0, 0, 0, 0, 0, 0, 0, 1, 1] = some c ∧
      c.printOwner = some 0 ∧ c.bankOwner = some 1 ∧
      (c.threads.getD 0 []).head? = some Op.wake ∧
      (c.threads.getD 1 []).head? = some (Op.lock Mutex.printMutex) ∧
      Deadlocked c :=
  ⟨_, rfl, by decide, by decide, by decide, by decide, by decide⟩

/-- C25: on every state `isSafe` and `findSafeSequence` both return, with the same boolean.
(Both are functions of the state that return no state: they write their locals only.) -/
theorem isSafe_agrees_with_findSafeSequence (s : State) :
    ∃ b seq, findSafeSequence s = some (b, seq) ∧ isSafe s = some b := by
  obtain ⟨r, hr⟩ := findSafeSequence_total s
  refine ⟨r.1, r.2, hr, ?_⟩
  rw [isSafe_eq s, hr]
  rfl

/-- C26: on every state, finished actors or not, the `while` loops of `isSafe` and of
`findSafeSequence` return within `numProcesses + 1` iterations, each of which scans the actor
table once: a scan that sets `found` has raised `count` (it marked a new actor), and after
a scan that leaves `found` unset the loop returns in the same iteration. -/
theorem safety_check_terminates (s : State) :
    (∃ b, isSafe.loop s (s.numProcesses + 1) (Sim.init s) = some b) ∧
    (∃ r, findSafeSequence.loop s (s.numProcesses + 1) (Sim.init s) = some r) ∧
    (∀ sim : Sim,
      ((List.range s.numProcesses).foldl (isSafe.visit s) { sim with found := false }).found
        = true →
      sim.count <
        ((List.range s.numProcesses).foldl (isSafe.visit s) { sim with found := false }).count) ∧
    (∀ (sim : Sim) (fuel : Nat), sim.count < s.numProcesses →
      ((List.range s.numProcesses).foldl (isSafe.visit s) { sim with found := false }).found
        = false →
      ∃ b, isSafe.loop s (fuel + 1) sim = some b) := by
  refine ⟨?_, findSafeSequence_total s, ?_, ?_⟩
  · obtain ⟨r, hr⟩ := findSafeSequence_total s
    refine ⟨r.1, ?_⟩
    rw [isSafe_loop_eq]
    show (findSafeSequence s).map Prod.fst = some r.1
    rw [hr]
    rfl
  · intro sim hfound
    rw [visit_eq] at hfound ⊢
    rcases (scan_count s (List.range s.numProcesses) { sim with found := false }).2 hfound with
      hc | hc
    · cases hc
    · exact hc
  · intro sim fuel hlt hnf
    unfold isSafe.loop
    simp only
    rw [if_pos hlt, hnf]
    simp only [Bool.not_false, if_true]
    split
    · exact ⟨_, rfl⟩
    · exact ⟨_, rfl⟩

/-- C27: in a well-formed state, when every actor is finished (also when there is no actor
at all) `isSafe` returns `true` and `findSafeSequence` returns `true` with the empty sequence;
in general the sequence `findSafeSequence` produces lists no finished actor, and the answer is
`true` exactly when the sequence lists every actor that is not finished, so a finished actor
never needs to be marked for a positive answer. -/
theorem finished_actors_are_skipped (s : State) (hwf : WF s) :
    ((∀ i, i < s.numProcesses → s.finished.getD i false = true) →
      isSafe s = some true ∧ findSafeSequence s = some (true, [])) ∧
    (∀ b seq, findSafeSequence s = some (b, seq) →
      (∀ i, i ∈ seq → (i < s.numProcesses ∧ s.finished.getD i false = false)) ∧
      (b = true ↔
        ∀ i, i < s.numProcesses → s.finished.getD i false = false → i ∈ seq)) := by
  refine ⟨fun hfin => ?_, fun b seq h => ?_⟩
  · have hf := findSafeSequence_all_finished s hfin
    refine ⟨?_, hf⟩
    rw [isSafe_eq, hf]
    rfl
  · obtain ⟨h1, -, -, h4⟩ :=
      findSafeSequence_loop_result s _ _ (simInv_init s hwf) b seq h
    exact ⟨h1, h4.trans ⟨fun hall i hi hf => hall i ⟨hi, hf⟩, fun hall i hact => hall i hact.1 hact.2⟩⟩

/-- Witness of C27: the allocator of Example 1 after the release of all five processes. -/
theorem finished_actors_are_skipped_witness :
    WF ((List.range 5).foldl releaseResources exampleState) ∧
    ((List.range 5).foldl releaseResources exampleState).finished =
      [true, true, true, true, true] ∧
    isSafe ((List.range 5).foldl releaseResources exampleState) = some true ∧
    findSafeSequence ((List.range 5).foldl releaseResources exampleState) = some (true, []) :=
  ⟨by decide, by decide,
    (finished_actors_are_skipped ((List.range 5).foldl releaseResources exampleState)
      (by decide)).1 (by decide)⟩

/-- C28: a call of `requestResources(a, request)`, granted or denied, leaves the dimensions,
`maximum`, every `finished` flag and the rows `allocation[i]` and `need[i]` of every actor
`i ≠ a` as they were, provided the other threads leave them alone during the waits of the
call (as they do when nobody else acts); only `available`, `allocation[a]` and `need[a]` can
differ. -/
theorem request_frame (env : Env) (s : State) (a : Nat) (req : List Int) (maxRetries : Int)
    (r : Result) (henv : ∀ w k t, SameFrame s a t → SameFrame s a (env w k t))
    (h : requestResources env s a req maxRetries = some r) :
    r.state.numProcesses = s.numProcesses ∧ r.state.numResources = s.numResources ∧
    r.state.maximum = s.maximum ∧ r.state.finished = s.finished ∧
    r.state.allocation.length = s.allocation.length ∧ r.state.need.length = s.need.length ∧
    ∀ i, i ≠ a →
      r.state.allocation.getD i [] = s.allocation.getD i [] ∧
      r.state.need.getD i [] = s.need.getD i [] :=
  requestResources_invariant env a req maxRetries (SameFrame s a) henv
    (fun _ ht => sameFrame_allocate req ht) s r
    ⟨rfl, rfl, rfl, rfl, rfl, rfl, fun _ _ => ⟨rfl, rfl⟩⟩ h

/-- Witness of C28: Test 1 of `main`, with nobody else acting. -/
theorem request_frame_witness :
    requestResources quiet exampleState 1 [1, 0, 2] 5 =
      some ⟨true, Exit.granted, exampleGranted⟩ ∧
    (exampleGranted.numProcesses = exampleState.numProcesses ∧
    exampleGranted.numResources = exampleState.numResources ∧
    exampleGranted.maximum = exampleState.maximum ∧
    exampleGranted.finished = exampleState.finished ∧
    exampleGranted.allocation.length = exampleState.allocation.length ∧
    exampleGranted.need.length = exampleState.need.length ∧
    ∀ i, i ≠ 1 →
      exampleGranted.allocation.getD i [] = exampleState.allocation.getD i [] ∧
      exampleGranted.need.getD i [] = exampleState.need.getD i []) :=
  ⟨by decide,
    request_frame quiet exampleState 1 [1, 0, 2] 5 ⟨true, Exit.granted, exampleGranted⟩
      (fun _ _ _ ht => ht) (by decide)⟩

/-- C30: on the validly constructed allocator of Example 1, the request `[-1, 0, 0]` of the
active process 0 passes the need check and the availability check (no check looks at the
sign) and is granted at the first attempt, whatever the other threads do; it leaves
`allocation[0][0] = -1` and `available[0] = 4`. -/
theorem negative_request_granted (env : Env) :
    construct 5 3 [3, 3, 2] [[7, 5, 3], [3, 2, 2], [9, 0, 2], [2, 2, 2], [4, 3, 3]]
      [[0, 1, 0], [2, 0, 0], [3, 0, 2], [2, 1, 1], [0, 0, 2]] = Except.ok exampleState ∧
    exampleState.finished.getD 0 false = false ∧ vget [-1, 0, 0] 0 < 0 ∧
    ∃ t, requestResources env exampleState 0 [-1, 0, 0] 5 = some ⟨true, Exit.granted, t⟩ ∧
      mget t.allocation 0 0 = -1 ∧ vget t.available 0 = 4 ∧
      t.allocation.getD 0 [] = [-1, 1, 0] ∧ t.available = [4, 3, 2] ∧
      t.need.getD 0 [] = [8, 4, 3] :=
  ⟨rfl, by decide, by decide, allocate exampleState 0 [-1, 0, 0],
    requestResources_first_attempt env exampleState 0 [-1, 0, 0] 5 (by decide) (by decide)
      (by decide) (by decide) (by decide),
    by decide, by decide, by decide, by decide, by decide⟩

/-! ## Safety along releases -/

/-- The positional and the recursive description of a safe order agree, for every start of
the work vector. -/
theorem safeFrom_iff (s : State) (σ : List Nat) (w : Nat → Int) :
    (∀ k, k < σ.length → ∀ j, j < s.numResources →
      mget s.need (σ.getD k 0) j ≤ w j + ((σ.take k).map fun i => mget s.allocation i j).sum) ↔
    SafeFrom s w σ := by
  induction σ generalizing w with
  | nil =>
    simp [SafeFrom]
  | cons i rest ih =>
    unfold SafeFrom
    rw [← ih]
    constructor
    · intro h
      refine ⟨fun j hj => ?_, fun k hk j hj => ?_⟩
      · have := h 0 (by simp) j hj
        simpa using this
      · have := h (k + 1) (by simpa using hk) j hj
        simp only [List.getD_cons_succ, List.take_succ_cons, List.map_cons, List.sum_cons] at this
        linarith
    · rintro ⟨h0, hrest⟩ k hk j hj
      cases k with
      | zero =>
        have := h0 j hj
        simpa using this
      | succ k =>
        have := hrest k (by simpa using hk) j hj
        simp only [List.getD_cons_succ, List.take_succ_cons, List.map_cons, List.sum_cons]
        linarith

theorem safeSequence_iff_safeFrom (s : State) (σ : List Nat) :
    SafeSequence s σ ↔ SafeFrom s (vget s.available) σ :=
  safeFrom_iff s σ (vget s.available)

/-- A safe order stays safe when the work vector grows and the rows of its actors stay as
they are. -/
theorem safeFrom_mono (s t : State) (hR : t.numResources = s.numResources) (σ : List Nat)
    (hsame : ∀ i, i ∈ σ → ∀ j, j < s.numResources →
      mget t.need i j = mget s.need i j ∧ mget t.allocation i j = mget s.allocation i j)
    (w v : Nat → Int) (hwv : ∀ j, j < s.numResources → w j ≤ v j) (h : SafeFrom s w σ) :
    SafeFrom t v σ := by
  induction σ generalizing w v with
  | nil => trivial
  | cons i rest ih =>
    obtain ⟨h0, hrest⟩ := h
    refine ⟨fun j hj => ?_, ?_⟩
    · rw [hR] at hj
      rw [(hsame i (List.mem_cons_self _ _) j hj).1]
      exact le_trans (h0 j hj) (hwv j hj)
    · refine ih (fun i2 hi2 => hsame i2 (List.mem_cons_of_mem _ hi2)) _ _ (fun j hj => ?_) hrest
      rw [(hsame i (List.mem_cons_self _ _) j hj).2]
      have := hwv j hj
      linarith

/-- Taking actor `a` out of a safe order leaves a safe order, in a state where the rows of
the other actors are as before and the work vector has grown by the allocation of `a`. -/
theorem safeFrom_filter (s t : State) (hR : t.numResources = s.numResources) (a : Nat)
    (hsame : ∀ i, i ≠ a → ∀ j, j < s.numResources →
      mget t.need i j = mget s.need i j ∧ mget t.allocation i j = mget s.allocation i j)
    (hnonneg : ∀ j, j < s.numResources → 0 ≤ mget s.allocation a j)
    (σ : List Nat) (hnd : σ.Nodup) (w v : Nat → Int)
    (hwv : ∀ j, j < s.numResources → w j + mget s.allocation a j ≤ v j)
    (h : SafeFrom s w σ) : SafeFrom t v (σ.filter fun i => decide (i ≠ a)) := by
  induction σ generalizing w v with
  | nil => trivial
  | cons i rest ih =>
    obtain ⟨h0, hrest⟩ := h
    obtain ⟨hnotin, hndrest⟩ := List.nodup_cons.1 hnd
    by_cases hia : i = a
    · subst hia
      have hfilter : (i :: rest).filter (fun x => decide (x ≠ i)) = rest := by
        rw [List.filter_cons_of_neg (by simp)]
        apply List.filter_eq_self.2
        intro x hx
        have : x ≠ i := fun e => hnotin (e ▸ hx)
        simpa using this
      rw [hfilter]
      exact safeFrom_mono s t hR rest
        (fun x hx => hsame x (fun e => hnotin (e ▸ hx))) _ _ hwv hrest
    · rw [List.filter_cons_of_pos (by simpa using hia)]
      refine ⟨fun j hj => ?_, ?_⟩
      · rw [hR] at hj
        rw [(hsame i hia j hj).1]
        have h1 := h0 j hj
        have h2 := hwv j hj
        have h3 := hnonneg j hj
        linarith
      · refine ih hndrest _ _ (fun j hj => ?_) hrest
        rw [(hsame i hia j hj).2]
        have := hwv j hj
        linarith

/-- A state with non-negative allocations that has a safe order of its active actors is
found safe by `isSafe`. -/
theorem isSafe_of_safeSequence (s : State) (hwf : WF s)
    (hnonneg : ∀ i, i < s.numProcesses → ∀ j, j < s.numResources → 0 ≤ mget s.allocation i j)
    (σ : List Nat) (hnd : σ.Nodup) (hmem : ∀ i, i ∈ σ ↔ Active s i) (hsafe : SafeSequence s σ) :
    isSafe s = some true := by
  obtain ⟨r, hr⟩ := findSafeSequence_total s
  have htrue := findSafeSequence_loop_complete s (fun i j hi hj => hnonneg i hi j hj) σ hnd hmem
    hsafe _ _ (simInv_init s hwf) r hr
  rw [isSafe_eq, hr, Option.map_some', htrue]

/-- A state found safe by `isSafe` has a safe order of its active actors. -/
theorem safeSequence_of_isSafe (s : State) (hwf : WF s) (h : isSafe s = some true) :
    ∃ σ : List Nat, σ.Nodup ∧ (∀ i, i ∈ σ ↔ Active s i) ∧ SafeSequence s σ := by
  obtain ⟨r, hr⟩ := findSafeSequence_total s
  rw [isSafe_eq, hr] at h
  have h1 : r.1 = true := Option.some.inj h
  have hr2 : findSafeSequence s = some (true, r.2) := by
    rw [hr, ← h1]
  exact ⟨r.2, findSafeSequence_loop_sound s _ _ (simInv_init s hwf) r.2 hr2⟩

/-- Releasing an actor of a safe state with non-negative allocations leaves a safe state:
the safe order without the released actor is a safe order of the new state. -/
theorem isSafe_releaseResources (s : State) (hwf : WF s) (a : Nat) (ha : a < s.numProcesses)
    (hnonneg : ∀ i, i < s.numProcesses → ∀ j, j < s.numResources → 0 ≤ mget s.allocation i j)
    (h : isSafe s = some true) : isSafe (releaseResources s a) = some true := by
  by_cases hfin : s.finished.getD a false = false
  · obtain ⟨σ, hnd, hmem, hsafe⟩ := safeSequence_of_isSafe s hwf h
    obtain ⟨e1, e2, -, -, -, -, e7⟩ := releaseResources_active hwf ha hfin
    have hent := releaseResources_entries hwf ha hfin
    apply isSafe_of_safeSequence (releaseResources s a) (wf_releaseResources hwf a) ?_
      (σ.filter fun i => decide (i ≠ a)) (hnd.filter _) ?_ ?_
    · intro i hi j hj
      rw [e1] at hi
      rw [e2] at hj
      rw [(hent i j).1]
      split
      · exact le_refl 0
      · exact hnonneg i hi j hj
    · intro i
      rw [List.mem_filter, hmem i]
      unfold Active
      rw [e1, (hent i 0).2.2]
      by_cases hia : i = a
      · simp [hia]
      · simp [hia]
    · rw [safeSequence_iff_safeFrom]
      apply safeFrom_filter s (releaseResources s a) e2 a ?_ (hnonneg a ha) σ hnd
        (vget s.available) _ ?_ ((safeSequence_iff_safeFrom s σ).1 hsafe)
      · intro i hia j _
        rw [(hent i j).1, (hent i j).2.1, if_neg hia, if_neg hia]
        exact ⟨rfl, rfl⟩
      · intro j hj
        rw [e7 j hj]
  · rw [releaseResources_finished s a (eq_true_of_ne_false hfin)]
    exact h

/-- Starting from a safe state with non-negative allocations, releases and requests without
negative entries lead to safe states only. -/
theorem reachableNonneg_isSafe {s0 s : State} (hwf : WF s0)
    (halloc0 : ∀ i, i < s0.numProcesses → ∀ j, j < s0.numResources → 0 ≤ mget s0.allocation i j)
    (hsafe0 : isSafe s0 = some true) (h : ReachableNonneg s0 s) : isSafe s = some true := by
  induction h with
  | init => exact hsafe0
  | @request t a req maxRetries r hreach ha hreq hr ih =>
    rcases requestResources_quiet_cases _ a req maxRetries r hr with
      ⟨-, hs⟩ | ⟨-, -, hs, -, -, -, -, hsafe⟩
    · rw [hs]
      exact ih
    · rw [hs]
      exact hsafe
  | @release t a hreach ha ih =>
    exact isSafe_releaseResources t (reachable_wf hwf (reachableNonneg_reachable hreach)) a ha
      (reachableNonneg_allocation hwf halloc0 hreach) ih

/-- C24: when the state produced by a successful construction is safe (`isSafe` returns
`true`), `isSafe` returns `true` in every state reached from it by releases and by requests
whose vectors have no negative entry; in particular the release of any actor in such a state
leaves a state on which `isSafe` returns `true`. (That `available` has no negative entry at
the start is not needed.) -/
theorem safety_invariant (processes resources : Nat) (avail : List Int)
    (max alloc : List (List Int)) (s0 : State)
    (hdims : Dims processes resources avail max alloc)
    (hc : construct processes resources avail max alloc = Except.ok s0)
    (hsafe0 : isSafe s0 = some true)
    (s : State) (hs : ReachableNonneg s0 s) :
    isSafe s = some true ∧
    ∀ a, a < s.numProcesses → isSafe (releaseResources s a) = some true := by
  have hwf := construct_wf hdims hc
  have halloc0 : ∀ i, i < s0.numProcesses → ∀ j, j < s0.numResources →
      0 ≤ mget s0.allocation i j := by
    rw [construct_ok hc]
    exact fun i hi j hj => ((construct_valid hc).1 i hi j hj).2.1
  exact ⟨reachableNonneg_isSafe hwf halloc0 hsafe0 hs,
    fun a ha => reachableNonneg_isSafe hwf halloc0 hsafe0 (ReachableNonneg.release a hs ha)⟩

/-- Witness of C24: the allocator of Example 1 after Test 1 of `main`, and after the release
of process 0 that follows. -/
theorem safety_invariant_witness :
    Dims 5 3 [3, 3, 2] exampleState.maximum exampleState.allocation ∧
    isSafe exampleState = some true ∧
    ReachableNonneg exampleState exampleGranted ∧
    (isSafe exampleGranted = some true ∧
    ∀ a, a < exampleGranted.numProcesses →
      isSafe (releaseResources exampleGranted a) = some true) :=
  have hreach : ReachableNonneg exampleState exampleGranted :=
    ReachableNonneg.request 1 [1, 0, 2] 5 ⟨true, Exit.granted, exampleGranted⟩
      ReachableNonneg.init (by decide) (by decide) (by decide)
  ⟨by decide, by decide, hreach,
    safety_invariant 5 3 [3, 3, 2] exampleState.maximum exampleState.allocation exampleState
      (by decide) rfl (by decide) exampleGranted hreach⟩

end Banker

namespace Trainings

/-! ## The weekday of a date -/

/-- The two truncating remainders of `getDayOfWeek` amount to one floor remainder. -/
theorem zeller_tail (a : Int) : Int.tmod (Int.tmod a 7 + 6) 7 = (a + 6) % 7 := by
  have h1 := Int.tmod_add_tdiv a 7
  have h2 : -7 < Int.tmod a 7 := by
    rcases Int.le_total 0 a with h | h
    · have := Int.tmod_nonneg 7 h
      omega
    · have h3 : Int.tmod (-a) 7 < 7 := Int.tmod_lt_of_pos _ (by decide)
      have h4 : Int.tmod (-a) 7 = -Int.tmod a 7 := by
        rw [Int.tmod_def, Int.tmod_def, Int.neg_tdiv]; ring
      omega
  have h5 : Int.tmod a 7 < 7 := Int.tmod_lt_of_pos _ (by decide)
  rw [Int.tmod_eq_emod (by omega) (by decide)]
  omega

/-- The number of days of the years `1..n`. -/
theorem sum_years (n : Nat) :
    ((List.range n).map fun (t : Nat) => daysInYear ((t : Int) + 1)).sum =
      365 * (n : Int) + (n : Int) / 4 - (n : Int) / 100 + (n : Int) / 400 := by
  induction n with
  | zero => simp
  | succ n ih =>
    rw [List.range_succ, List.map_append, List.sum_append, ih]
    simp only [List.map_cons, List.map_nil, List.sum_cons, List.sum_nil, add_zero]
    unfold daysInYear isLeapYear
    push_cast
    split <;> omega

theorem sum_years_succ (y : Int) (hy : 1 ≤ y) :
    365 * y + y / 4 - y / 100 + y / 400 =
      365 * (y - 1) + (y - 1) / 4 - (y - 1) / 100 + (y - 1) / 400 + daysInYear y := by
  obtain ⟨n, rfl⟩ : ∃ n : Nat, y = (n : Int) + 1 := ⟨(y - 1).toNat, by omega⟩
  have h1 := sum_years (n + 1)
  rw [List.range_succ, List.map_append, List.sum_append, sum_years n] at h1
  simp only [List.map_cons, List.map_nil, List.sum_cons, List.sum_nil, add_zero] at h1
  push_cast at h1
  rw [← h1]
  ring_nf

/-- The year term of the formula of Zeller counts, modulo 7, the days of the years `1..y`. -/
theorem year_term (y : Int) :
    (y % 100 + (y % 100) / 4 + (y / 100) / 4 - 2 * (y / 100)) % 7 =
      (365 * y + y / 4 - y / 100 + y / 400) % 7 := by
  have h1 : y / 4 = 25 * (y / 100) + (y % 100) / 4 := by omega
  have h2 : y / 400 = (y / 100) / 4 := by omega
  omega

/-- The number of days of the months before month `m` in year `y`. -/
theorem sum_months (y : Int) (m : Int) (hm1 : 1 ≤ m) (hm : m ≤ 12) :
    ((List.range (m.toNat - 1)).map fun (i : Nat) => daysInMonth y ((i : Int) + 1)).sum =
      (if m = 1 then 0 else if m = 2 then 31 else
        (if isLeapYear y then 1 else 0) +
        (if m = 3 then 59 else if m = 4 then 90 else if m = 5 then 120 else if m = 6 then 151
          else if m = 7 then 181 else if m = 8 then 212 else if m = 9 then 243
          else if m = 10 then 273 else if m = 11 then 304 else 334)) := by
  interval_cases m <;> simp [List.range_succ, daysInMonth] <;> split <;> rfl

/-- On a year and month that are not negative the truncating quotients and remainders of the
sum of Zeller are the floor ones. -/
theorem zeller_nonneg (d m y : Int) (hm : 0 ≤ m) (hy : 0 ≤ y) :
    d + Int.tdiv (13 * (m + 1)) 5 + Int.tmod y 100 + Int.tdiv (Int.tmod y 100) 4 +
        Int.tdiv (Int.tdiv y 100) 4 - 2 * Int.tdiv y 100 =
      d + (13 * (m + 1)) / 5 + y % 100 + (y % 100) / 4 + (y / 100) / 4 - 2 * (y / 100) := by
  have h1 : Int.tmod y 100 = y % 100 := Int.tmod_eq_emod hy (by decide)
  have h2 : Int.tdiv y 100 = y / 100 := Int.tdiv_eq_ediv hy (by decide)
  have h3 : (0 : Int) ≤ y % 100 := Int.emod_nonneg _ (by decide)
  have h4 : (0 : Int) ≤ y / 100 := Int.ediv_nonneg hy (by decide)
  rw [h1, h2, Int.tdiv_eq_ediv h3 (by decide), Int.tdiv_eq_ediv h4 (by decide),
    Int.tdiv_eq_ediv (by omega) (by decide)]

/-- C32: for every valid calendar date (year at least 1, month in `1..12`, day within the
month) `getDayOfWeek` returns the Gregorian weekday of the date, a number in `0..6` with `0`
for Sunday, also when the sum of Zeller is negative. -/
theorem getDayOfWeek_gregorian (date : Date) (h : date.Valid) :
    date.getDayOfWeek = gregorianWeekday date ∧
    0 ≤ date.getDayOfWeek ∧ date.getDayOfWeek ≤ 6 := by
  have heq : date.getDayOfWeek = gregorianWeekday date := by
    obtain ⟨hy, hm1, hm12, -, -⟩ := h
    obtain ⟨d, m, y⟩ := date
    simp only at hy hm1 hm12
    unfold Date.getDayOfWeek Date.zellerSum gregorianWeekday dayNumber
    simp only
    rw [zeller_tail, sum_years, sum_months y m hm1 hm12]
    have hn : ((y.toNat - 1 : Nat) : Int) = y - 1 := by omega
    rw [hn]
    clear hn
    by_cases hlt : m < 3
    · rw [if_pos hlt, if_pos hlt, zeller_nonneg _ _ _ (by omega) (by omega)]
      have ht := year_term (y - 1)
      generalize (y - 1) % 100 / 4 = k4 at *
      generalize (y - 1) % 100 = k at *
      generalize (y - 1) / 100 / 4 = j4 at *
      generalize (y - 1) / 100 = j at *
      generalize (y - 1) / 4 = a at *
      generalize (y - 1) / 400 = b at *
      have hm : m = 1 ∨ m = 2 := by omega
      rcases hm with rfl | rfl
      · norm_num
        omega
      · norm_num
        omega
    · rw [if_neg hlt, if_neg hlt, zeller_nonneg _ _ _ (by omega) (by omega)]
      have ht := year_term y
      have hsucc := sum_years_succ y hy
      unfold daysInYear at hsucc
      rw [if_neg (by omega), if_neg (by omega)]
      generalize (y - 1) / 4 = a1 at *
      generalize (y - 1) / 100 = b1 at *
      generalize (y - 1) / 400 = c1 at *
      generalize y % 100 / 4 = k4 at *
      generalize y % 100 = k at *
      generalize y / 100 / 4 = j4 at *
      generalize y / 100 = j at *
      generalize y / 4 = a at *
      generalize y / 400 = b at *
      by_cases hL : isLeapYear y
      · rw [if_pos hL] at hsucc ⊢
        clear hL
        interval_cases m <;> norm_num <;> omega
      · rw [if_neg hL] at hsucc ⊢
        clear hL
        interval_cases m <;> norm_num <;> omega
  rw [heq]
  unfold gregorianWeekday
  have h7 := Int.emod_lt_of_pos (dayNumber date) (show (0 : Int) < 7 by decide)
  exact ⟨rfl, Int.emod_nonneg _ (by decide), by omega⟩

/-- Witness of C32: 1 March 2000 is a valid date, its sum of Zeller is `-24` with truncating
remainder `-3`, and `getDayOfWeek` returns `3` (Wednesday), the Gregorian weekday; 1 January
2024 gives `1` (Monday). -/
theorem getDayOfWeek_gregorian_witness :
    (Date.mk 1 3 2000).Valid ∧
    ((Date.mk 1 3 2000).getDayOfWeek = gregorianWeekday (Date.mk 1 3 2000) ∧
      0 ≤ (Date.mk 1 3 2000).getDayOfWeek ∧ (Date.mk 1 3 2000).getDayOfWeek ≤ 6) ∧
    (Date.mk 1 3 2000).zellerSum = -24 ∧ Int.tmod (Date.mk 1 3 2000).zellerSum 7 = -3 ∧
    (Date.mk 1 3 2000).getDayOfWeek = 3 ∧ (Date.mk 1 1 2024).getDayOfWeek = 1 :=
  ⟨by decide, getDayOfWeek_gregorian (Date.mk 1 3 2000) (by decide),
    by decide, by decide, by decide, by decide⟩

/-! ## The two filters -/

/-- The sequential filter returns the elements whose weekday is the target day, in order. -/
theorem single_eq_filter (ts : List Training) (day : Int) :
    findTrainingsByDaySingleThread ts day =
      ts.filter fun t => decide (t.date.getDayOfWeek = day) := by
  unfold findTrainingsByDaySingleThread
  have h : ∀ (l acc : List Training),
      l.foldl (fun result t => if t.date.getDayOfWeek = day then result ++ [t] else result) acc =
        acc ++ l.filter fun t => decide (t.date.getDayOfWeek = day) := by
    intro l
    induction l with
    | nil => intro acc; simp
    | cons t l ih =>
      intro acc
      simp only [List.foldl_cons]
      rw [ih]
      by_cases ht : t.date.getDayOfWeek = day
      · simp [ht]
      · simp [ht]
  simpa using h ts []

/-- A chunk `[s, s + n)` contributes the matching elements among `trainings[s .. s + n)`. -/
theorem processChunk_eq (ts : List Training) (day : Int) (n s : Nat) (acc : List Training) :
    processChunk ts s (s + n) day acc =
      acc ++ ((ts.drop s).take n).filter fun t => decide (t.date.getDayOfWeek = day) := by
  unfold processChunk
  rw [Nat.add_sub_cancel_left]
  induction n generalizing s acc with
  | zero => simp
  | succ n ih =>
    rw [List.range'_succ]
    simp only [List.foldl_cons]
    rw [ih]
    cases hs : ts[s]? with
    | none =>
      have hlen : ts.length ≤ s := by
        by_contra hc
        rw [List.getElem?_eq_getElem (by omega)] at hs
        cases hs
      simp [List.drop_eq_nil_of_le hlen, List.drop_eq_nil_of_le (Nat.le_succ_of_le hlen)]
    | some t =>
      have hlt : s < ts.length := by
        by_contra hc
        rw [List.getElem?_eq_none (by omega)] at hs
        cases hs
      have hdrop : ts.drop s = t :: ts.drop (s + 1) := by
        rw [List.drop_eq_getElem_cons hlt]
        rw [List.getElem?_eq_getElem hlt] at hs
        rw [Option.some.inj hs]
      rw [hdrop]
      by_cases ht : t.date.getDayOfWeek = day
      · simp [ht]
      · simp [ht]

theorem contiguous_append {a b c : Nat} {l : List (Nat × Nat)} (h : Contiguous a l b)
    (hbc : b ≤ c) : Contiguous a (l ++ [(b, c)]) c := by
  induction l generalizing a with
  | nil =>
    have hab : a = b := h
    exact ⟨hab.symm, hbc, rfl⟩
  | cons x l ih =>
    obtain ⟨h1, h2, h3⟩ := h
    exact ⟨h1, h2, ih h3⟩

theorem foldl_append_singleton (l : List (List Training)) (x : List Training) :
    (l ++ [x]).foldl (fun result tr => result ++ tr) [] =
      l.foldl (fun result tr => result ++ tr) [] ++ x := by
  rw [List.foldl_append]
  rfl

/-- The state of the loop over the threads after `k` iterations: the value of `start`, the
number of chunks issued, their contiguity, and the merge of their results. -/
theorem chunkLoop (ts : List Training) (day : Int) (n k : Nat) :
    let st := (List.range k).foldl
      (fun (st : Nat × List (Nat × Nat)) i =>
        let endIndex := st.1 + ts.length / n + (if i < ts.length % n then 1 else 0)
        (endIndex, st.2 ++ [(st.1, endIndex)]))
      (0, [])
    st.1 = k * (ts.length / n) + min k (ts.length % n) ∧
    st.2.length = k ∧
    Contiguous 0 st.2 st.1 ∧
    (st.2.map fun b => processChunk ts b.1 b.2 day []).foldl (fun result tr => result ++ tr) [] =
      (ts.take st.1).filter fun t => decide (t.date.getDayOfWeek = day) := by
  induction k with
  | zero => simp [Contiguous]
  | succ k ih =>
    rw [List.range_succ, List.foldl_append]
    simp only [List.foldl_cons, List.foldl_nil]
    obtain ⟨h1, h2, h3, h4⟩ := ih
    generalize (List.range k).foldl
      (fun (st : Nat × List (Nat × Nat)) i =>
        let endIndex := st.1 + ts.length / n + (if i < ts.length % n then 1 else 0)
        (endIndex, st.2 ++ [(st.1, endIndex)]))
      (0, []) = st at *
    refine ⟨?_, ?_, ?_, ?_⟩
    · show st.1 + ts.length / n + (if k < ts.length % n then 1 else 0) = _
      rw [h1]
      split
      · rw [Nat.min_eq_left (by omega), Nat.min_eq_left (by omega)]
        ring
      · rw [Nat.min_eq_right (by omega), Nat.min_eq_right (by omega)]
        ring
    · show (st.2 ++ [_]).length = k + 1
      rw [List.length_append, h2]
      rfl
    · exact contiguous_append h3 (Nat.le_trans (Nat.le_add_right _ _) (Nat.le_add_right _ _))
    · show ((st.2 ++ [(st.1, st.1 + ts.length / n + (if k < ts.length % n then 1 else 0))]).map
        fun b => processChunk ts b.1 b.2 day []).foldl (fun result tr => result ++ tr) [] = _
      rw [List.map_append, List.map_cons, List.map_nil, foldl_append_singleton, h4]
      show _ ++ processChunk ts st.1 (st.1 + ts.length / n + (if k < ts.length % n then 1 else 0))
        day [] = List.filter _ (List.take (st.1 + ts.length / n +
          (if k < ts.length % n then 1 else 0)) ts)
      rw [Nat.add_assoc, processChunk_eq, List.nil_append, ← List.filter_append,
        ← List.take_add]

/-- C33: for every list of trainings, every target day and every `numThreads ≥ 1`, the chunk
bounds of `findTrainingsByDayMultiThread` are `numThreads` contiguous ascending chunks that
start at `0` and end at the size of the list, and the merged result is the sequence that
`findTrainingsByDaySingleThread` returns, which is the list of the trainings whose
`getDayOfWeek` is the target day, in the order of the input. -/
theorem multiThread_eq_singleThread (trainings : List Training) (dayOfWeek : Int)
    (numThreads : Nat) (hn : 1 ≤ numThreads) :
    (chunkBounds trainings.length numThreads).length = numThreads ∧
    Contiguous 0 (chunkBounds trainings.length numThreads) trainings.length ∧
    findTrainingsByDayMultiThread trainings dayOfWeek numThreads =
      findTrainingsByDaySingleThread trainings dayOfWeek ∧
    findTrainingsByDaySingleThread trainings dayOfWeek =
      trainings.filter fun t => decide (t.date.getDayOfWeek = dayOfWeek) := by
  obtain ⟨h1, h2, h3, h4⟩ := chunkLoop trainings dayOfWeek numThreads numThreads
  have hend : numThreads * (trainings.length / numThreads) +
      min numThreads (trainings.length % numThreads) = trainings.length := by
    rw [Nat.min_eq_right (Nat.le_of_lt (Nat.mod_lt _ hn))]
    exact Nat.div_add_mod _ _
  rw [hend] at h1
  rw [h1] at h3 h4
  refine ⟨h2, h3, ?_, single_eq_filter trainings dayOfWeek⟩
  rw [single_eq_filter]
  unfold findTrainingsByDayMultiThread
  rw [List.take_length] at h4
  exact h4

/-- Witness of C33: three trainings (Wednesday 1 March 2000, Monday 1 January 2024, Monday
8 January 2024), target day Monday and four threads, more than the list has elements: the
chunks are `[0,1)`, `[1,2)`, `[2,3)`, `[3,3)` and both filters return the two Monday
trainings in the order of the input. -/
theorem multiThread_eq_singleThread_witness :
    1 ≤ 4 ∧
    ((chunkBounds [Training.mk ⟨1, 3, 2000⟩ ⟨9, 0⟩ "A", Training.mk ⟨1, 1, 2024⟩ ⟨10, 30⟩ "B",
        Training.mk ⟨8, 1, 2024⟩ ⟨18, 0⟩ "A"].length 4).length = 4 ∧
      Contiguous 0 (chunkBounds [Training.mk ⟨1, 3, 2000⟩ ⟨9, 0⟩ "A",
        Training.mk ⟨1, 1, 2024⟩ ⟨10, 30⟩ "B",
        Training.mk ⟨8, 1, 2024⟩ ⟨18, 0⟩ "A"].length 4)
        [Training.mk ⟨1, 3, 2000⟩ ⟨9, 0⟩ "A", Training.mk ⟨1, 1, 2024⟩ ⟨10, 30⟩ "B",
        Training.mk ⟨8, 1, 2024⟩ ⟨18, 0⟩ "A"].length ∧
      findTrainingsByDayMultiThread [Training.mk ⟨1, 3, 2000⟩ ⟨9, 0⟩ "A",
        Training.mk ⟨1, 1, 2024⟩ ⟨10, 30⟩ "B", Training.mk ⟨8, 1, 2024⟩ ⟨18, 0⟩ "A"] 1 4 =
        findTrainingsByDaySingleThread [Training.mk ⟨1, 3, 2000⟩ ⟨9, 0⟩ "A",
          Training.mk ⟨1, 1, 2024⟩ ⟨10, 30⟩ "B", Training.mk ⟨8, 1, 2024⟩ ⟨18, 0⟩ "A"] 1 ∧
      findTrainingsByDaySingleThread [Training.mk ⟨1, 3, 2000⟩ ⟨9, 0⟩ "A",
        Training.mk ⟨1, 1, 2024⟩ ⟨10, 30⟩ "B", Training.mk ⟨8, 1, 2024⟩ ⟨18, 0⟩ "A"] 1 =
        [Training.mk ⟨1, 3, 2000⟩ ⟨9, 0⟩ "A", Training.mk ⟨1, 1, 2024⟩ ⟨10, 30⟩ "B",
          Training.mk ⟨8, 1, 2024⟩ ⟨18, 0⟩ "A"].filter
          fun t => decide (t.date.getDayOfWeek = 1)) ∧
    chunkBounds 3 4 = [(0, 1), (1, 2), (2, 3), (3, 3)] ∧
    findTrainingsByDayMultiThread [Training.mk ⟨1, 3, 2000⟩ ⟨9, 0⟩ "A",
      Training.mk ⟨1, 1, 2024⟩ ⟨10, 30⟩ "B", Training.mk ⟨8, 1, 2024⟩ ⟨18, 0⟩ "A"] 1 4 =
      [Training.mk ⟨1, 1, 2024⟩ ⟨10, 30⟩ "B", Training.mk ⟨8, 1, 2024⟩ ⟨18, 0⟩ "A"] :=
  ⟨by decide,
    multiThread_eq_singleThread [Training.mk ⟨1, 3, 2000⟩ ⟨9, 0⟩ "A",
      Training.mk ⟨1, 1, 2024⟩ ⟨10, 30⟩ "B", Training.mk ⟨8, 1, 2024⟩ ⟨18, 0⟩ "A"] 1 4
      (by decide),
    by decide, rfl⟩

end Trainings
